import Mathlib

set_option maxHeartbeats 1000000
set_option maxRecDepth 100000

/-!
Verification of the pyPlayer terminal video player core: the ANSI color
compression pass (`ColorManager.compress_frame`), the Otsu adaptive threshold,
the text / braille / half-block glyph renderers, the renderer registry, the
frame diff engine and the playback scheduler, shallowly embedded from
`src/pyplayer/renderer_factory.py` and `src/pyplayer/player.py`.

Machine conventions: Python strings are `List Char`; Python floats are modelled
as exact rationals `ℚ`; functions that can raise return `Option`.
-/

namespace PyPlayer

/-- The escape character `"\033"`. -/
def escC : Char := Char.ofNat 27

/-- The reset token `"\033[0m"` (`ColorManager.reset_color`). -/
def resetTok : List Char := [escC, '[', '0', 'm']

/-! ### `strip_ansi` (player.py, lines 128-130)

The regex is ESC followed by either one Fe byte (0x40–0x5A or 0x5C–0x5F), or a
CSI sequence: a bracket, any parameter bytes (0x30–0x3F), any intermediate
bytes (0x20–0x2F), and one final byte (0x40–0x7E).  The three CSI character
classes are pairwise disjoint, so the regex engine scans deterministically:
parameter bytes, then intermediate bytes, then one final byte; if no final byte
follows, the match fails and the ESC character itself is left in place. -/

/-- CSI parameter byte class (0x30–0x3F). -/
def isCsiParamByte (c : Char) : Bool := 0x30 ≤ c.toNat && c.toNat ≤ 0x3F

/-- CSI intermediate byte class (0x20–0x2F). -/
def isCsiIntermByte (c : Char) : Bool := 0x20 ≤ c.toNat && c.toNat ≤ 0x2F

/-- CSI final byte class (0x40–0x7E). -/
def isCsiFinalByte (c : Char) : Bool := 0x40 ≤ c.toNat && c.toNat ≤ 0x7E

/-- Fe escape byte class (0x40–0x5A and 0x5C–0x5F). -/
def isFeByte (c : Char) : Bool :=
  (0x40 ≤ c.toNat && c.toNat ≤ 0x5A) || (0x5C ≤ c.toNat && c.toNat ≤ 0x5F)

/-- Try to match parameter bytes, then intermediate bytes, then one final byte
at the front of `l` (the characters after the ESC-bracket prefix); return the
rest of the string after the match, or `none` when the match fails. -/
def tryCsi (l : List Char) : Option (List Char) :=
  let l1 := l.dropWhile isCsiParamByte
  let l2 := l1.dropWhile isCsiIntermByte
  match l2 with
  | c :: r => if isCsiFinalByte c then some r else none
  | [] => none

/-- `strip_ansi`, fuelled: remove every match of the regex, leave failed
matches (including the leading ESC) in place.  Each step consumes at least one
character, so `fuel = length` always suffices. -/
def stripAnsiFuel : Nat → List Char → List Char
  | 0, l => l
  | _ + 1, [] => []
  | f + 1, c :: rest =>
    if c = escC then
      match rest with
      | [] => [c]
      | c2 :: r2 =>
        if isFeByte c2 then stripAnsiFuel f r2
        else if c2 = '[' then
          match tryCsi r2 with
          | some r3 => stripAnsiFuel f r3
          | none => c :: stripAnsiFuel f rest
        else c :: stripAnsiFuel f rest
    else c :: stripAnsiFuel f rest

/-- `strip_ansi` from `Player._render_frame_diff`. -/
def stripAnsi (l : List Char) : List Char := stripAnsiFuel l.length l

/-! ### `ColorManager.compress_frame` (renderer_factory.py, lines 45-163) -/

/-- `"\033[" in text`. -/
def hasEscBr : List Char → Bool
  | [] => false
  | [_] => false
  | c1 :: c2 :: rest => (c1 = escC && c2 = '[') || hasEscBr (c2 :: rest)

/-- `'[' ∈ line`. -/
def hasBr (l : List Char) : Bool := l.contains '['

/-- `processed_line.startswith("\033[", i)`. -/
def startsEscBr : List Char → Bool
  | a :: b :: _ => a = escC && b = '['
  | _ => false

/-- `end = processed_line.find("m", i); chunk = processed_line[i : end + 1]`:
split off everything up to and including the first `'m'`; `none` when there is
no `'m'` (a "bad ANSI sequence"). -/
def takeToM : List Char → Option (List Char × List Char)
  | [] => none
  | c :: r =>
    if c = 'm' then some ([c], r)
    else
      match takeToM r with
      | some (a, b) => some (c :: a, b)
      | none => none

/-- `ansi_code.startswith("\033[48;")`. -/
def isBg48 : List Char → Bool
  | c :: '[' :: '4' :: '8' :: ';' :: _ => c = escC
  | _ => false

/-- `ansi_code.startswith("\033[38;")`. -/
def isFg38 : List Char → Bool
  | c :: '[' :: '3' :: '8' :: ';' :: _ => c = escC
  | _ => false

/-- The mutable loop state of `compress_frame`'s inner loop: `current_bg`,
`current_fg`, `char_buffer` and `compressed`. -/
structure CompSt where
  bg : Option (List Char)
  fg : Option (List Char)
  buf : List Char
  comp : List (List Char)
  deriving DecidableEq, Repr

/-- `prefix = (current_bg or "") + (current_fg or "")`. -/
def stylePfx (bg fg : Option (List Char)) : List Char :=
  bg.getD [] ++ fg.getD []

/-- Flush `char_buffer` into `compressed` (prefixed with the live colors) when
it is non-empty. -/
def flushSt (s : CompSt) : CompSt :=
  if s.buf = [] then s
  else { s with comp := s.comp ++ [stylePfx s.bg s.fg ++ s.buf], buf := [] }

/-- `char_buffer.append(c)`. -/
def pushBuf (s : CompSt) (c : Char) : CompSt := { s with buf := s.buf ++ [c] }

/-- Process one complete `ansi_code` chunk: the `"\033[0m"` / `"\033[48;"` /
`"\033[38;"` / other branches of the loop body. -/
def chunkStep (s : CompSt) (chunk : List Char) : CompSt :=
  if chunk = resetTok then
    let s1 := flushSt s
    { s1 with comp := s1.comp ++ [chunk], bg := none, fg := none }
  else if isBg48 chunk then
    let s1 := if s.bg ≠ some chunk ∧ s.buf ≠ [] then flushSt s else s
    { s1 with bg := some chunk }
  else if isFg38 chunk then
    let s1 := if s.fg ≠ some chunk ∧ s.buf ≠ [] then flushSt s else s
    { s1 with fg := some chunk }
  else
    let s1 := flushSt s
    { s1 with comp := s1.comp ++ [chunk] }

/-- The `while i < len(processed_line)` loop, fuelled (each step consumes at
least one character). -/
def compressGo : Nat → CompSt → List Char → CompSt
  | 0, s, _ => s
  | _ + 1, s, [] => s
  | f + 1, s, c :: rest =>
    if startsEscBr (c :: rest) then
      match takeToM (c :: rest) with
      | none => compressGo f (pushBuf s c) rest
      | some (chunk, rest2) => compressGo f (chunkStep s chunk) rest2
    else compressGo f (pushBuf s c) rest

/-- After the loop: flush the residual buffer, then append a trailing reset
when a color is still live and the last compressed entry does not already end
with one.  `compressed[-1]` on an empty list raises `IndexError`, modelled as
`none`.  Also returns the final `current_bg` / `current_fg`. -/
def compressFinish (s : CompSt) :
    Option (List (List Char) × Option (List Char) × Option (List Char)) :=
  let s1 := flushSt s
  if s1.bg.isSome || s1.fg.isSome then
    match s1.comp.getLast? with
    | none => none
    | some lastE =>
      if resetTok.isSuffixOf lastE then some (s1.comp, s1.bg, s1.fg)
      else some (s1.comp ++ [resetTok], s1.bg, s1.fg)
  else some (s1.comp, s1.bg, s1.fg)

/-- `line.replace("[", "\033[")`. -/
def replaceBr : List Char → List Char
  | [] => []
  | c :: r => if c = '[' then escC :: '[' :: replaceBr r else c :: replaceBr r

/-- Process one line of `compress_frame`; returns the final line together with
the final color state (`none` on `IndexError`). -/
def compressLineFull (hasEsc : Bool) (line : List Char) :
    Option (List Char × Option (List Char) × Option (List Char)) :=
  if ¬ hasBr line ∧ ¬ hasEscBr line then some (line, none, none)
  else
    let processed := if hasEsc then line else escC :: replaceBr line
    match compressFinish (compressGo (processed.length + 1) ⟨none, none, [], []⟩ processed) with
    | none => none
    | some (comp, bg, fg) =>
      let fin := comp.flatten
      some ((if hasEsc then fin else fin.filter (fun c => c ≠ escC)), bg, fg)

/-- One compressed line (dropping the final state). -/
def compressLine (hasEsc : Bool) (line : List Char) : Option (List Char) :=
  (compressLineFull hasEsc line).map (·.1)

/-- `text.split("\n")`. -/
def splitNl : List Char → List (List Char)
  | [] => [[]]
  | c :: r =>
    if c = '\n' then [] :: splitNl r
    else
      match splitNl r with
      | h :: t => (c :: h) :: t
      | [] => [[c]]

/-- `"\n".join(lines)`. -/
def joinNl : List (List Char) → List Char
  | [] => []
  | [l] => l
  | l :: r => l ++ '\n' :: joinNl r

/-- Sequence a list of options. -/
def optList {α : Type} : List (Option α) → Option (List α)
  | [] => some []
  | o :: r =>
    match o, optList r with
    | some a, some l => some (a :: l)
    | _, _ => none

/-- `ColorManager.compress_frame` (raising modelled as `none`). -/
def compress_frame (text : List Char) : Option (List Char) :=
  if text = [] then some text
  else
    let hasEsc := hasEscBr text
    match optList ((splitNl text).map (compressLine hasEsc)) with
    | none => none
    | some outs => some (joinNl outs)

/-! ### `Player._render_frame_diff` (player.py, lines 116-168)

The diff function is pure apart from its `sys.stdout.write` calls; we model it
as the concatenation of everything it writes, in order. -/

/-- `f"\033[{row};{col}H"`. -/
def cursorPos (row col : Nat) : List Char :=
  escC :: '[' :: (Nat.repr row).data ++ ';' :: (Nat.repr col).data ++ ['H']

/-- `zip` with index: pairs of lines at the same index. -/
def zipLines (a b : List (List Char)) : List (List Char × List Char) := a.zip b

/-- The byte stream written by `_render_frame_diff` in `line` mode. -/
def diffLineMode (prevLines currLines : List (List Char)) : List Char :=
  ((zipLines prevLines currLines).enum.map fun pci =>
      if stripAnsi pci.2.1 ≠ stripAnsi pci.2.2 then
        cursorPos (pci.1 + 1) 0 ++ pci.2.2
      else []).flatten ++
  (if prevLines.length < currLines.length then
    ((List.range' prevLines.length (currLines.length - prevLines.length)).map fun i =>
        cursorPos (i + 1) 0 ++ currLines.getD i []).flatten
  else [])

/-- The byte stream written by `_render_frame_diff` in `char` mode for one
zipped line pair: mismatched positions of the stripped lines are rewritten
using `curr_line[col_idx]`, i.e. the *raw* current line indexed by the
*stripped* column index. -/
def diffCharRow (rowIdx : Nat) (prevLine currLine : List Char) : List Char :=
  let sp := stripAnsi prevLine
  let sc := stripAnsi currLine
  let maxLen := min sp.length sc.length
  ((List.range maxLen).map fun colIdx =>
      if sp.getD colIdx ' ' ≠ sc.getD colIdx ' ' then
        cursorPos (rowIdx + 1) (colIdx + 1) ++ [currLine.getD colIdx ' ']
      else []).flatten ++
  (if sp.length < sc.length then
    ((List.range' sp.length (sc.length - sp.length)).map fun colIdx =>
        cursorPos (rowIdx + 1) (colIdx + 1) ++ [currLine.getD colIdx ' ']).flatten
  else [])

/-- The byte stream written by `_render_frame_diff` in `char` mode. -/
def diffCharMode (prevLines currLines : List (List Char)) : List Char :=
  ((zipLines prevLines currLines).enum.map fun pci =>
      diffCharRow pci.1 pci.2.1 pci.2.2).flatten ++
  (if prevLines.length < currLines.length then
    ((List.range' prevLines.length (currLines.length - prevLines.length)).map fun i =>
        cursorPos (i + 1) 1 ++ currLines.getD i []).flatten
  else [])

/-- `Player._render_frame_diff` with a previous frame present, as the
concatenated terminal byte stream. -/
def renderFrameDiff (mode : List Char) (prev curr : List Char) : List Char :=
  let prevLines := splitNl prev
  let currLines := splitNl curr
  if mode = "line".data then diffLineMode prevLines currLines
  else if mode = "char".data then diffCharMode prevLines currLines
  else []

/-! ### A terminal model

A grid of visible characters plus a cursor.  Printable bytes are written at
the cursor (padding with blanks as needed) and advance it; CSI cursor-position
sequences move the cursor (ANSI rows/columns are 1-based, and a 0 or missing
parameter means 1); all other escape sequences (including SGR color codes) do
not change the visible grid; an ESC that starts no complete sequence is
consumed without printing. -/

/-- Parse a run of digits into a number, returning the rest. -/
def takeNum : List Char → Nat → Nat × List Char
  | [], acc => (acc, [])
  | c :: r, acc =>
    if c.isDigit then takeNum r (acc * 10 + (c.toNat - 48))
    else (acc, c :: r)

/-- Parse semicolon-separated numeric parameters. -/
def takeParams : Nat → List Char → List Nat × List Char
  | 0, l => ([], l)
  | f + 1, l =>
    let (n, r) := takeNum l 0
    match r with
    | ';' :: r2 =>
      let (ns, r3) := takeParams f r2
      (n :: ns, r3)
    | _ => ([n], r)

/-- The terminal state: visible character grid plus 0-based cursor. -/
structure TermSt where
  grid : List (List Char)
  row : Nat
  col : Nat
  deriving DecidableEq, Repr

/-- Pad a list with blanks to length `n`. -/
def padTo (l : List Char) (n : Nat) : List Char :=
  l ++ List.replicate (n - l.length) ' '

/-- Write character `c` at 0-based `(row, col)` of the grid, padding with
blank lines / blanks as needed. -/
def writeCell (grid : List (List Char)) (row col : Nat) (c : Char) : List (List Char) :=
  let grid1 := grid ++ List.replicate (row + 1 - grid.length) []
  grid1.enum.map fun li =>
    if li.1 = row then (padTo li.2 (col + 1)).set col c else li.2

/-- Interpret a terminal byte stream over a terminal state. -/
def applyOut : Nat → TermSt → List Char → TermSt
  | 0, t, _ => t
  | _ + 1, t, [] => t
  | f + 1, t, c :: rest =>
    if c = escC then
      match rest with
      | '[' :: r2 =>
        let (ps, r3) := takeParams (r2.length + 1) r2
        match r3 with
        | fin :: r4 =>
          if fin = 'H' then
            let row := max (ps.getD 0 1) 1
            let col := max (ps.getD 1 1) 1
            applyOut f { t with row := row - 1, col := col - 1 } r4
          else if isCsiFinalByte fin then applyOut f t r4
          else applyOut f t rest
        | [] => applyOut f t rest
      | _ => applyOut f t rest
    else if 32 ≤ c.toNat then
      applyOut f { grid := writeCell t.grid t.row t.col c, row := t.row, col := t.col + 1 }
        rest
    else applyOut f t rest

/-- A fresh terminal whose visible content is the stripped previous frame. -/
def termOfFrame (frame : List Char) : TermSt :=
  ⟨splitNl (stripAnsi frame), 0, 0⟩

/-- The visible grid of a frame: its stripped lines. -/
def visibleGrid (frame : List Char) : List (List Char) :=
  splitNl (stripAnsi frame)

/-- Same-shaped frames: equal line counts and equal visible line lengths. -/
def sameShaped (prev curr : List Char) : Bool :=
  (visibleGrid prev).length = (visibleGrid curr).length &&
  ((visibleGrid prev).zip (visibleGrid curr)).all fun pc => pc.1.length = pc.2.length

/-! ### `ColorManager` color helpers (renderer_factory.py, lines 19-43) -/

/-- `ColorManager.rgb_to_ansi`. -/
def rgbToAnsi (r g b : Nat) : List Char :=
  escC :: '[' :: '3' :: '8' :: ';' :: '2' :: ';' ::
    (Nat.repr r).data ++ ';' :: (Nat.repr g).data ++ ';' :: (Nat.repr b).data ++ ['m']

/-- `ColorManager.rgb_to_ansi_bg`. -/
def rgbToAnsiBg (r g b : Nat) : List Char :=
  escC :: '[' :: '4' :: '8' :: ';' :: '2' :: ';' ::
    (Nat.repr r).data ++ ';' :: (Nat.repr g).data ++ ';' :: (Nat.repr b).data ++ ['m']

/-- `ColorManager.calculate_average_color` (truncating integer mean; empty
input yields black). -/
def calculateAverageColor (colors : List (Nat × Nat × Nat)) : Nat × Nat × Nat :=
  if colors = [] then (0, 0, 0)
  else
    ((colors.map (·.1)).sum / colors.length,
     (colors.map (·.2.1)).sum / colors.length,
     (colors.map (·.2.2)).sum / colors.length)

/-! ### `BaseRenderer.calculate_otsu_threshold` (renderer_factory.py, 209-251)

Python floats are modelled as exact rationals. -/

/-- The histogram built by `hist[pixel] += 1` over the grayscale pixels. -/
def histOf (pixels : List (Fin 256)) : Nat → Nat :=
  fun i => pixels.countP fun p => decide (p.val = i)

/-- The mutable state of the Otsu loop (`sum_b`, `w_b`, `max_variance`,
`threshold`), plus a flag recording that `break` was executed. -/
structure OtsuSt where
  sumB : Nat
  wB : Nat
  maxVariance : ℚ
  threshold : Nat
  done : Bool
  deriving DecidableEq, Repr

/-- One iteration of the `for i in range(256)` loop. -/
def otsuStep (hist : Nat → Nat) (total sumTotal : Nat) (s : OtsuSt) (i : Nat) : OtsuSt :=
  if s.done then s
  else
    let wB := s.wB + hist i
    if wB = 0 then { s with wB := wB }
    else
      let wF := total - wB
      if wF = 0 then { s with wB := wB, done := true }
      else
        let sumB := s.sumB + i * hist i
        let mB : ℚ := (sumB : ℚ) / (wB : ℚ)
        let mF : ℚ := ((sumTotal : ℚ) - (sumB : ℚ)) / (wF : ℚ)
        let variance : ℚ := (wB : ℚ) * (wF : ℚ) * (mB - mF) ^ 2
        if s.maxVariance < variance then
          { sumB := sumB, wB := wB, maxVariance := variance, threshold := i, done := false }
        else { s with sumB := sumB, wB := wB }

/-- `calculate_otsu_threshold` as a function of the histogram. -/
def otsuHist (hist : Nat → Nat) : Nat :=
  let total := ((List.range 256).map hist).sum
  let sumTotal := ((List.range 256).map fun i => i * hist i).sum
  ((List.range 256).foldl (otsuStep hist total sumTotal) ⟨0, 0, 0, 128, false⟩).threshold

/-- `BaseRenderer.calculate_otsu_threshold`. -/
def calculateOtsuThreshold (pixels : List (Fin 256)) : Nat :=
  otsuHist (histOf pixels)

/-- Weight of the background class for candidate split `t`: the pixel count at
gray levels `0..t`. -/
def otsuWb (hist : Nat → Nat) (t : Nat) : Nat := ((List.range (t + 1)).map hist).sum

/-- Weighted gray-level sum of the background class for candidate split `t`. -/
def otsuSb (hist : Nat → Nat) (t : Nat) : Nat :=
  ((List.range (t + 1)).map fun i => i * hist i).sum

/-- Total pixel count of the histogram. -/
def otsuTotal (hist : Nat → Nat) : Nat := ((List.range 256).map hist).sum

/-- Total weighted gray-level sum of the histogram. -/
def otsuSumTotal (hist : Nat → Nat) : Nat :=
  ((List.range 256).map fun i => i * hist i).sum

/-- The between-class variance `w_b * w_f * (mean_b - mean_f) ** 2` at
candidate split `t` (with the junk value 0 when a class is empty, since the
weight factor is then 0). -/
def otsuVariance (hist : Nat → Nat) (t : Nat) : ℚ :=
  let wB := otsuWb hist t
  let wF := otsuTotal hist - wB
  let mB : ℚ := (otsuSb hist t : ℚ) / (wB : ℚ)
  let mF : ℚ := ((otsuSumTotal hist : ℚ) - (otsuSb hist t : ℚ)) / (wF : ℚ)
  (wB : ℚ) * (wF : ℚ) * (mB - mF) ^ 2

/-- A candidate split is valid when both classes are non-empty. -/
def otsuValid (hist : Nat → Nat) (t : Nat) : Prop :=
  0 < otsuWb hist t ∧ otsuWb hist t < otsuTotal hist

instance (hist : Nat → Nat) (t : Nat) : Decidable (otsuValid hist t) := by
  unfold otsuValid
  infer_instance

/-! ### `BrailleRenderer` (renderer_factory.py, lines 344-417) -/

/-- `DOT_MAPPING`: sub-pixel offset `(dx, dy)` to braille dot bit. -/
def dotMapping : Nat × Nat → Nat
  | (0, 0) => 0x01
  | (1, 0) => 0x08
  | (0, 1) => 0x02
  | (1, 1) => 0x10
  | (0, 2) => 0x04
  | (1, 2) => 0x20
  | (0, 3) => 0x40
  | (1, 3) => 0x80
  | _ => 0

/-- `pixel_threshold`: `threshold * 0.8`, or `threshold * 1.2` when
`transparent` is set. -/
def braillePixelThreshold (threshold : Nat) (transparent : Bool) : ℚ :=
  if transparent then (threshold : ℚ) * (12 / 10) else (threshold : ℚ) * (8 / 10)

/-- The inner double loop over the 8 sub-pixels of cell `(x, y)`: the braille
code word and the list of lit sub-pixel colors. -/
def brailleCell (grayPixels : List (Fin 256)) (colorPixels : List (Nat × Nat × Nat))
    (width height : Nat) (threshold : Nat) (transparent : Bool) (x y : Nat) :
    Nat × List (Nat × Nat × Nat) :=
  (List.range 4).foldl (fun acc dy =>
    (List.range 2).foldl (fun acc2 dx =>
      let px := x * 2 + dx
      let py := y * 4 + dy
      if width ≤ px ∨ height ≤ py then acc2
      else
        let idx := py * width + px
        if idx < grayPixels.length then
          if braillePixelThreshold threshold transparent <
              ((grayPixels.getD idx 0 : Fin 256) : ℚ) then
            (acc2.1 ||| dotMapping (dx, dy), acc2.2 ++ [colorPixels.getD idx (0, 0, 0)])
          else acc2
        else acc2) acc) (0x2800, [])

/-- Render one braille cell as text. -/
def brailleCellRender (grayPixels : List (Fin 256)) (colorPixels : List (Nat × Nat × Nat))
    (width height : Nat) (threshold : Nat) (transparent colorFlag : Bool) (x y : Nat) :
    List Char :=
  let cell := brailleCell grayPixels colorPixels width height threshold transparent x y
  if cell.2 ≠ [] then
    if colorFlag then
      let avg := calculateAverageColor cell.2
      rgbToAnsi avg.1 avg.2.1 avg.2.2 ++ [Char.ofNat cell.1] ++ resetTok
    else [Char.ofNat cell.1]
  else [' ']

/-- `BaseRenderer.apply_frame_color`. -/
def applyFrameColor (frameColor : Option (Nat × Nat × Nat)) (text : List Char) : List Char :=
  match frameColor with
  | some (r, g, b) => rgbToAnsi r g b ++ text ++ resetTok
  | none => text

/-- `BrailleRenderer._convert_to_braille`. -/
def convertToBraille (grayPixels : List (Fin 256)) (colorPixels : List (Nat × Nat × Nat))
    (width height : Nat) (threshold : Nat) (transparent colorFlag : Bool)
    (frameColor : Option (Nat × Nat × Nat)) : List Char :=
  let cols := max 1 (width / 2)
  let rows := max 1 (height / 4)
  applyFrameColor frameColor
    (joinNl ((List.range rows).map fun y =>
      ((List.range cols).map fun x =>
        brailleCellRender grayPixels colorPixels width height threshold transparent
          colorFlag x y).flatten))

/-- `BrailleRenderer.render` after the resize step: Otsu threshold over the
grayscale pixels, braille conversion, color compression. -/
def renderBraille (grayPixels : List (Fin 256)) (colorPixels : List (Nat × Nat × Nat))
    (width height : Nat) (transparent colorFlag : Bool)
    (frameColor : Option (Nat × Nat × Nat)) : Option (List Char) :=
  let threshold := calculateOtsuThreshold grayPixels
  compress_frame
    (convertToBraille grayPixels colorPixels width height threshold transparent colorFlag
      frameColor)

/-! ### `HalfBlockRenderer.render` (renderer_factory.py, lines 420-484),
after the resize step, over the RGB pixel sequence. -/

/-- `HalfBlockRenderer.render` post-resize.  `threshold` is the precomputed
transparency threshold (only read when `transparent` is set). -/
def renderHalfBlock (pixels : List (Nat × Nat × Nat)) (width height : Nat)
    (transparent : Bool) (threshold : Nat) : Option (List Char) :=
  let targetHeight := height * 2
  let rows := (List.range height).map fun r =>
    let y := 2 * r
    (((List.range width).map fun x =>
      let upperIdx := y * width + x
      let lowerIdx := if y + 1 < targetHeight then (y + 1) * width + x else upperIdx
      let upperPixel := pixels.getD upperIdx (0, 0, 0)
      let lowerPixel := pixels.getD lowerIdx (0, 0, 0)
      let upperBrightness : ℚ := ((upperPixel.1 : ℚ) + upperPixel.2.1 + upperPixel.2.2) / 3
      let lowerBrightness : ℚ := ((lowerPixel.1 : ℚ) + lowerPixel.2.1 + lowerPixel.2.2) / 3
      if transparent ∧ (upperBrightness + lowerBrightness) / 2 < (threshold : ℚ) then
        resetTok ++ [' ']
      else if upperPixel = (0, 0, 0) ∧ lowerPixel = (0, 0, 0) ∧ transparent then
        [' ']
      else
        rgbToAnsiBg upperPixel.1 upperPixel.2.1 upperPixel.2.2 ++
          rgbToAnsi lowerPixel.1 lowerPixel.2.1 lowerPixel.2.2 ++ ['▄']).flatten) ++
      resetTok
  compress_frame (joinNl rows)

/-! ### `TextRenderer` glyph-index selection (renderer_factory.py, 254-341) -/

/-- `TextRenderer.styles`, the built-in glyph ramps. -/
def textStyles : List (String × String) :=
  [("default",
    ".-':_,^=;><+!rc*/z?sLTv)J7(|Fi{C}fI31tlu[neoZ5Yxjya]2ESwqkP6h9d4VpOGbUAKXHm8RD#$Bg0MNWQ%&@"),
   ("legacy", ".:-=+*#%@"),
   ("blockNoColor", " ▒▓█"),
   ("block", "▒▓█"),
   ("blockv2", "█████████")]

/-- `intensity_range = 255 / (len(self.ascii_chars) - 1)`. -/
def intensityRange (rampLen : Nat) : ℚ := 255 / ((rampLen - 1 : Nat) : ℚ)

/-- Python `int()`: truncation toward zero of a rational. -/
def truncQ (q : ℚ) : ℤ := Int.tdiv q.num (q.den : ℤ)

/-- `int(brightness / intensity_range)`, the ramp index chosen for a pixel of
mean channel brightness `brightness`. -/
def textGlyphIndex (brightness : ℚ) (rampLen : Nat) : ℤ :=
  truncQ (brightness / intensityRange rampLen)

/-- `self.ascii_chars[int(pixel_value / intensity_range)]` for a grayscale
pixel. -/
def renderGrayscalePixelGlyph (ramp : List Char) (pixelValue : Nat) : Char :=
  ramp.getD (textGlyphIndex (pixelValue : ℚ) ramp.length).toNat ' '

/-! ### `RendererFactory` (renderer_factory.py, lines 487-584)

The registry `dict[str, type[BaseRenderer]]` is modelled as a partial map from
names into an arbitrary type `α` of renderer classes; an instance is a class
tag together with the constructor arguments. -/

/-- The renderer registry `RendererFactory._renderers`. -/
def Registry (α : Type) : Type := String → Option α

/-- `RendererFactory._normalize_names`. -/
def normalizeNames : String ⊕ List String → List String
  | .inl n => [n]
  | .inr t => t

/-- `RendererFactory.register_renderer`. -/
def registerRenderer {α : Type} (reg : Registry α) (name : String ⊕ List String)
    (rendererClass : α) : Registry α :=
  (normalizeNames name).foldl
    (fun r styleName => fun q => if q = styleName then some rendererClass else r q) reg

/-- `RendererFactory.unregister_renderer`. -/
def unregisterRenderer {α : Type} (reg : Registry α) (name : String ⊕ List String) :
    Registry α :=
  (normalizeNames name).foldl
    (fun r styleName => fun q => if q = styleName then none else r q) reg

/-- `RendererFactory.has_renderer`. -/
def hasRenderer {α : Type} (reg : Registry α) (style : String) : Bool :=
  (reg style).isSome

/-- An instantiated renderer: the class it was created from plus the
constructor arguments. -/
structure RendererInst (α : Type) where
  cls : α
  style : String
  color : Bool
  frameColor : Option (Nat × Nat × Nat)
  transparent : Bool
  deriving Repr

/-- `InvalidRenderStyleError`. -/
inductive CreateError where
  | invalidRenderStyle (style : String)
  deriving DecidableEq, Repr

/-- `RendererFactory.create_renderer`. -/
def createRenderer {α : Type} (reg : Registry α) (style : String) (color : Bool)
    (frameColor : Option (Nat × Nat × Nat)) (transparent : Bool) :
    Except CreateError (RendererInst α) :=
  if ¬ hasRenderer reg style then .error (.invalidRenderStyle style)
  else
    match reg style with
    | some c => .ok ⟨c, style, color, frameColor, transparent⟩
    | none => .error (.invalidRenderStyle style)

/-! ### `Player._play_frames` scheduling core (player.py, lines 193-335)

The loop is modelled as a transition system driven by the sequence of values
`time.perf_counter()` returns at the top of each iteration; rendering and
terminal output are irrelevant to the timing invariant and are abstracted into
the emitted event. -/

/-- Scheduler state: `current_frame`, `next_frame_time`, `skipped_frames`. -/
structure SchedState where
  currentFrame : Nat
  nextFrameTime : ℚ
  skippedFrames : Nat
  deriving DecidableEq, Repr

/-- What one loop iteration did with a frame. -/
inductive SchedEvent where
  | displayed (i : Nat)
  | skipped (i : Nat)
  deriving DecidableEq, Repr

/-- The frame index an event processed. -/
def SchedEvent.idx : SchedEvent → Nat
  | .displayed i => i
  | .skipped i => i

/-- One iteration of the playback loop at wall-clock time `now`:
sleep (no event), skip, or display. -/
def playStep (startTime frameDuration skipThreshold : ℚ) (frameSkip : Bool)
    (s : SchedState) (now : ℚ) : SchedState × Option SchedEvent :=
  let timeDifference := now - s.nextFrameTime
  if 0 ≤ timeDifference then
    if skipThreshold < timeDifference ∧ frameSkip then
      ({ currentFrame := s.currentFrame + 1,
         nextFrameTime := startTime + (s.currentFrame + 1 : ℚ) * frameDuration,
         skippedFrames := s.skippedFrames + 1 }, some (.skipped s.currentFrame))
    else
      ({ currentFrame := s.currentFrame + 1,
         nextFrameTime := startTime + (s.currentFrame + 1 : ℚ) * frameDuration,
         skippedFrames := s.skippedFrames }, some (.displayed s.currentFrame))
  else (s, none)

/-- The playback loop `while current_frame < total_frames`, driven by the
list of wall-clock readings; returns the final state and the event log. -/
def playRun (startTime frameDuration skipThreshold : ℚ) (frameSkip : Bool)
    (totalFrames : Nat) : SchedState → List ℚ → SchedState × List SchedEvent
  | s, [] => (s, [])
  | s, now :: ticks =>
    if s.currentFrame < totalFrames then
      let step := playStep startTime frameDuration skipThreshold frameSkip s now
      let rest := playRun startTime frameDuration skipThreshold frameSkip totalFrames
        step.1 ticks
      (rest.1, step.2.toList ++ rest.2)
    else (s, [])

/-! ### Otsu loop invariant -/

/-- Pixel count at gray levels below `n`. -/
def histPre (hist : Nat → Nat) (n : Nat) : Nat := ((List.range n).map hist).sum

/-- Weighted gray-level sum below `n`. -/
def histPreSum (hist : Nat → Nat) (n : Nat) : Nat :=
  ((List.range n).map fun i => i * hist i).sum

/-- Pixel count at gray levels in `[a, a + k)`. -/
def histSeg (hist : Nat → Nat) (a k : Nat) : Nat := ((List.range' a k).map hist).sum

/-- Weighted gray-level sum over `[a, a + k)`. -/
def histSegSum (hist : Nat → Nat) (a k : Nat) : Nat :=
  ((List.range' a k).map fun i => i * hist i).sum

/-- State after the first `n` iterations of the Otsu loop. -/
def otsuIter (hist : Nat → Nat) (n : Nat) : OtsuSt :=
  (List.range n).foldl (otsuStep hist (otsuTotal hist) (otsuSumTotal hist))
    ⟨0, 0, 0, 128, false⟩

/-- The invariant of the Otsu loop after `n` iterations: `w_b` and `sum_b`
track the histogram prefix sums, `done` records that the foreground class has
been exhausted, and `(max_variance, threshold)` is either still the initial
`(0, 128)` with no valid candidate seen, or the first argmax of the
between-class variance over the candidates seen so far. -/
def OtsuInv (hist : Nat → Nat) (n : Nat) (s : OtsuSt) : Prop :=
  s.wB = histPre hist n ∧
  (s.done = true ↔ 0 < n ∧ 0 < otsuTotal hist ∧ histPre hist n = otsuTotal hist) ∧
  (s.done = false → s.sumB = histPreSum hist n) ∧
  ((s.maxVariance = 0 ∧ s.threshold = 128 ∧ ∀ i, i < n → ¬ otsuValid hist i) ∨
   (otsuValid hist s.threshold ∧ s.threshold < n ∧
    s.maxVariance = otsuVariance hist s.threshold ∧ 0 < s.maxVariance ∧
    (∀ i, i < n → otsuValid hist i → otsuVariance hist i ≤ s.maxVariance) ∧
    (∀ i, i < s.threshold → otsuValid hist i → otsuVariance hist i < s.maxVariance)))

/-! ### Well-formed ANSI token lists

The color tokens the renderers emit all have the shape `ESC [ params m` with
parameter bytes only; `WfTok` describes character lists every ESC of which
begins such a token.  On these, the `compress_frame` state machine and
`strip_ansi` tokenize identically. -/

/-- A color token `ESC [ ds m`. -/
def mkTok (ds : List Char) : List Char := escC :: '[' :: ds ++ ['m']

/-- Character lists in which every ESC begins a complete `ESC [ params m`
token. -/
inductive WfTok : List Char → Prop where
  | nil : WfTok []
  | lit {c : Char} {r : List Char} : c ≠ escC → WfTok r → WfTok (c :: r)
  | tok {ds r : List Char} : (∀ c ∈ ds, isCsiParamByte c = true) → WfTok r →
      WfTok (escC :: '[' :: ds ++ 'm' :: r)

/-- A buffer with no escape character. -/
def noEsc (l : List Char) : Prop := ∀ c ∈ l, c ≠ escC

/-- A stored `current_bg` / `current_fg` value: absent, or a complete non-reset
color token. -/
def TokOpt (o : Option (List Char)) : Prop :=
  o = none ∨ ∃ ds, (∀ c ∈ ds, isCsiParamByte c = true) ∧ ds ≠ ['0'] ∧ o = some (mkTok ds)

/-- Number of occurrences of the reset token (scanning every position; the
reset token cannot overlap itself). -/
def countR : List Char → Nat
  | [] => 0
  | c :: r => (if resetTok.isPrefixOf (c :: r) then 1 else 0) + countR r

/-- The `compress_frame` loop with its canonical fuel (as called by
`compressLineFull`). -/
def compressGoA (s : CompSt) (l : List Char) : CompSt := compressGo (l.length + 1) s l

/-- The visible content of a loop state: the escape-stripped compressed output
followed by the pending character buffer. -/
def vis (s : CompSt) : List Char := stripAnsi s.comp.flatten ++ s.buf

/-- The number of reset tokens already emitted by a loop state. -/
def crs (s : CompSt) : Nat := countR s.comp.flatten

/-- The loop invariant of the `compress_frame` state machine on well-formed
input: emitted entries are well-formed token lists, the buffer is escape-free,
and the tracked colors are complete non-reset color tokens. -/
def Inv (s : CompSt) : Prop :=
  (∀ e ∈ s.comp, WfTok e) ∧ noEsc s.buf ∧ TokOpt s.bg ∧ TokOpt s.fg

/-! ### Braille dot bits -/

/-- The bit position (exponent) of each braille dot in `DOT_MAPPING`. -/
def dotExp : Nat × Nat → Nat
  | (0, 0) => 0
  | (1, 0) => 3
  | (0, 1) => 1
  | (1, 1) => 4
  | (0, 2) => 2
  | (1, 2) => 5
  | (0, 3) => 6
  | (1, 3) => 7
  | _ => 0

/-- `Nat.testBit` under a proof-local alias (keeps rewriting predictable). -/
def tbit (x k : Nat) : Bool := x.testBit k

/-! ### Theorems -/

/-! ## Supporting lemmas -/

/-- Case analysis for one scheduler iteration: either it sleeps (no event, no
state change), or it processes exactly the current frame, advancing the frame
index by one and the ideal next-frame time to
`start + (current_frame + 1) * frame_duration`. -/
theorem playStep_cases (startTime frameDuration skipThreshold : ℚ) (frameSkip : Bool)
    (s : SchedState) (now : ℚ) :
    playStep startTime frameDuration skipThreshold frameSkip s now = (s, none) ∨
    ∃ sk ev,
      playStep startTime frameDuration skipThreshold frameSkip s now =
        ({ currentFrame := s.currentFrame + 1,
           nextFrameTime := startTime + (s.currentFrame + 1 : ℚ) * frameDuration,
           skippedFrames := sk }, some ev) ∧
      ev.idx = s.currentFrame := by
  unfold playStep
  by_cases h0 : (0 : ℚ) ≤ now - s.nextFrameTime
  · rw [if_pos h0]
    by_cases hskip : skipThreshold < now - s.nextFrameTime ∧ frameSkip = true
    · exact Or.inr ⟨s.skippedFrames + 1, .skipped s.currentFrame, by rw [if_pos hskip], rfl⟩
    · exact Or.inr ⟨s.skippedFrames, .displayed s.currentFrame, by rw [if_neg hskip], rfl⟩
  · exact Or.inl (by rw [if_neg h0])

/-- The scheduling invariant, generalized over the starting state: provided
the ideal next-frame time of the starting state is
`start + current_frame * frame_duration`, the final state satisfies the same
equation, the frame index grows by exactly the number of processed events, and
the processed frame indices are consecutive from the starting index. -/
theorem playRun_spec (startTime frameDuration skipThreshold : ℚ) (frameSkip : Bool)
    (totalFrames : Nat) :
    ∀ (ticks : List ℚ) (s : SchedState),
      s.nextFrameTime = startTime + (s.currentFrame : ℚ) * frameDuration →
      (playRun startTime frameDuration skipThreshold frameSkip totalFrames s
            ticks).1.nextFrameTime =
          startTime +
            ((playRun startTime frameDuration skipThreshold frameSkip totalFrames s
                ticks).1.currentFrame : ℚ) * frameDuration ∧
      (playRun startTime frameDuration skipThreshold frameSkip totalFrames s
            ticks).1.currentFrame =
          s.currentFrame +
            (playRun startTime frameDuration skipThreshold frameSkip totalFrames s
              ticks).2.length ∧
      (playRun startTime frameDuration skipThreshold frameSkip totalFrames s ticks).2.map
            SchedEvent.idx =
          List.range' s.currentFrame
            (playRun startTime frameDuration skipThreshold frameSkip totalFrames s
              ticks).2.length := by
  intro ticks
  induction ticks with
  | nil => intro s hs; simp [playRun, hs]
  | cons now ticks ih =>
    intro s hs
    by_cases hlt : s.currentFrame < totalFrames
    · rcases playStep_cases startTime frameDuration skipThreshold frameSkip s now with
        hstep | ⟨sk, ev, hstep, hidx⟩
      · simp only [playRun, if_pos hlt, hstep]
        simpa using ih s hs
      · have hs' :
            (SchedState.mk (s.currentFrame + 1)
                  (startTime + (s.currentFrame + 1 : ℚ) * frameDuration)
                  sk).nextFrameTime =
              startTime +
                ((SchedState.mk (s.currentFrame + 1)
                      (startTime + (s.currentFrame + 1 : ℚ) * frameDuration)
                      sk).currentFrame : ℚ) * frameDuration := by
          push_cast
          ring
        rcases ih _ hs' with ⟨ih1, ih2, ih3⟩
        have ih2' :
            (playRun startTime frameDuration skipThreshold frameSkip totalFrames
                  ⟨s.currentFrame + 1, startTime + (s.currentFrame + 1 : ℚ) * frameDuration,
                    sk⟩ ticks).1.currentFrame =
              s.currentFrame + 1 +
                (playRun startTime frameDuration skipThreshold frameSkip totalFrames
                  ⟨s.currentFrame + 1, startTime + (s.currentFrame + 1 : ℚ) * frameDuration,
                    sk⟩ ticks).2.length := ih2
        have ih3' :
            (playRun startTime frameDuration skipThreshold frameSkip totalFrames
                  ⟨s.currentFrame + 1, startTime + (s.currentFrame + 1 : ℚ) * frameDuration,
                    sk⟩ ticks).2.map SchedEvent.idx =
              List.range' (s.currentFrame + 1)
                (playRun startTime frameDuration skipThreshold frameSkip totalFrames
                  ⟨s.currentFrame + 1, startTime + (s.currentFrame + 1 : ℚ) * frameDuration,
                    sk⟩ ticks).2.length := ih3
        simp only [playRun, if_pos hlt, hstep, Option.toList_some, List.singleton_append,
          List.map_cons, List.length_cons, hidx]
        refine ⟨ih1, ?_, ?_⟩
        · rw [ih2']; omega
        · rw [List.range'_succ, ih3']
    · simp [playRun, if_neg hlt, hs]

/-- `truncQ` agrees with the floor on non-negative rationals. -/
theorem truncQ_eq_floor (q : ℚ) (h : 0 ≤ q) : truncQ q = ⌊q⌋ := by
  rw [truncQ, Rat.floor_def, Int.tdiv_eq_ediv (Rat.num_nonneg.mpr h) (by positivity)]

/-- The text glyph index is bounded by the ramp length for brightness at most
255, for any ramp of at least two glyphs. -/
theorem textGlyphIndex_lt (brightness : ℚ) (n : Nat) (h2 : 2 ≤ n)
    (h0 : 0 ≤ brightness) (h255 : brightness ≤ 255) :
    (textGlyphIndex brightness n).toNat < n := by
  have hn1 : (0 : ℚ) < ((n - 1 : Nat) : ℚ) := by
    have : 1 ≤ n - 1 := by omega
    exact_mod_cast Nat.lt_of_lt_of_le Nat.zero_lt_one this
  have hc : (0 : ℚ) < intensityRange n := by
    rw [intensityRange]
    positivity
  have hq : brightness / intensityRange n ≤ ((n - 1 : Nat) : ℚ) := by
    rw [div_le_iff₀ hc, intensityRange]
    have hcancel : ((n - 1 : Nat) : ℚ) * (255 / ((n - 1 : Nat) : ℚ)) = 255 := by
      rw [mul_comm, div_mul_cancel₀ _ (ne_of_gt hn1)]
    linarith
  have hq0 : 0 ≤ brightness / intensityRange n := by positivity
  rw [textGlyphIndex, truncQ_eq_floor _ hq0]
  have hfl : ⌊brightness / intensityRange n⌋ ≤ (n - 1 : Nat) := by
    rw [Int.floor_le_iff]
    calc brightness / intensityRange n ≤ ((n - 1 : Nat) : ℚ) := hq
      _ < ((n - 1 : Nat) : ℚ) + 1 := by linarith
  omega

theorem histPre_succ (hist : Nat → Nat) (n : Nat) :
    histPre hist (n + 1) = histPre hist n + hist n := by
  simp [histPre, List.range_succ]

theorem histPreSum_succ (hist : Nat → Nat) (n : Nat) :
    histPreSum hist (n + 1) = histPreSum hist n + n * hist n := by
  simp [histPreSum, List.range_succ]

theorem histPre_mono (hist : Nat → Nat) {n m : Nat} (h : n ≤ m) :
    histPre hist n ≤ histPre hist m := by
  induction h with
  | refl => exact Nat.le_refl _
  | step _ ih => rw [histPre_succ]; omega

theorem histSeg_concat (hist : Nat → Nat) (a k : Nat) :
    histSeg hist a (k + 1) = histSeg hist a k + hist (a + k) := by
  simp [histSeg, List.range'_concat]

theorem histSegSum_concat (hist : Nat → Nat) (a k : Nat) :
    histSegSum hist a (k + 1) = histSegSum hist a k + (a + k) * hist (a + k) := by
  simp [histSegSum, List.range'_concat]

theorem histPre_seg (hist : Nat → Nat) (a k : Nat) :
    histPre hist (a + k) = histPre hist a + histSeg hist a k := by
  induction k with
  | zero => simp [histSeg]
  | succ k ih =>
    have h1 : a + (k + 1) = (a + k) + 1 := by omega
    rw [h1, histPre_succ, ih, histSeg_concat hist a k]
    omega

theorem histPreSum_seg (hist : Nat → Nat) (a k : Nat) :
    histPreSum hist (a + k) = histPreSum hist a + histSegSum hist a k := by
  induction k with
  | zero => simp [histSegSum]
  | succ k ih =>
    have h1 : a + (k + 1) = (a + k) + 1 := by omega
    rw [h1, histPreSum_succ, ih, histSegSum_concat hist a k]
    omega

theorem histPreSum_le (hist : Nat → Nat) (t : Nat) :
    histPreSum hist (t + 1) ≤ t * histPre hist (t + 1) := by
  induction t with
  | zero => simp [histPreSum, histPre, List.range_succ]
  | succ t ih =>
    rw [histPreSum_succ, histPre_succ]
    have h1 : (t + 1) * (histPre hist (t + 1) + hist (t + 1)) =
        (t + 1) * histPre hist (t + 1) + (t + 1) * hist (t + 1) := by ring
    have h2 : t * histPre hist (t + 1) ≤ (t + 1) * histPre hist (t + 1) :=
      Nat.mul_le_mul_right _ (Nat.le_succ t)
    omega

theorem histSegSum_ge (hist : Nat → Nat) (k : Nat) :
    ∀ a : Nat, a * histSeg hist a k ≤ histSegSum hist a k := by
  induction k with
  | zero => intro a; simp [histSeg, histSegSum]
  | succ k ih =>
    intro a
    rw [histSeg, histSegSum, List.range'_succ]
    simp only [List.map_cons, List.sum_cons]
    have h1 := ih (a + 1)
    have h2 : a * histSeg hist (a + 1) k ≤ histSegSum hist (a + 1) k :=
      le_trans (Nat.mul_le_mul_right _ (Nat.le_succ a)) h1
    rw [histSeg, histSegSum] at h2
    calc a * (hist a + ((List.range' (a + 1) k).map hist).sum)
        = a * hist a + a * ((List.range' (a + 1) k).map hist).sum := by ring
      _ ≤ a * hist a + ((List.range' (a + 1) k).map fun i => i * hist i).sum := by omega

/-- An invalid candidate split (one of the classes empty) has between-class
variance 0. -/
theorem otsuVariance_invalid (hist : Nat → Nat) (t : Nat) (h : ¬ otsuValid hist t) :
    otsuVariance hist t = 0 := by
  rw [otsuValid, not_and_or] at h
  rcases h with h | h
  · have h0 : otsuWb hist t = 0 := by omega
    simp [otsuVariance, h0]
  · have h0 : otsuTotal hist - otsuWb hist t = 0 := by omega
    simp [otsuVariance, h0]

/-- A valid candidate split has strictly positive between-class variance: the
background mean is at most `t`, the foreground mean at least `t + 1`. -/
theorem otsuVariance_pos (hist : Nat → Nat) (t : Nat) (ht : t ≤ 255)
    (h : otsuValid hist t) : 0 < otsuVariance hist t := by
  obtain ⟨hb, hf⟩ := h
  have hwb : otsuWb hist t = histPre hist (t + 1) := rfl
  have htot : otsuTotal hist = histPre hist 256 := rfl
  have hsplit : histPre hist 256 =
      histPre hist (t + 1) + histSeg hist (t + 1) (255 - t) := by
    have : (t + 1) + (255 - t) = 256 := by omega
    rw [← this, histPre_seg]
  have hsplitSum : histPreSum hist 256 =
      histPreSum hist (t + 1) + histSegSum hist (t + 1) (255 - t) := by
    have : (t + 1) + (255 - t) = 256 := by omega
    rw [← this, histPreSum_seg]
  have hwf : otsuTotal hist - otsuWb hist t = histSeg hist (t + 1) (255 - t) := by
    omega
  have hwfpos : 0 < histSeg hist (t + 1) (255 - t) := by omega
  set wB := otsuWb hist t with hwBdef
  set wF := otsuTotal hist - otsuWb hist t with hwFdef
  have hQwb : (0 : ℚ) < (wB : ℚ) := by exact_mod_cast hb
  have hQwf : (0 : ℚ) < (wF : ℚ) := by rw [hwf]; exact_mod_cast hwfpos
  have hmB : (otsuSb hist t : ℚ) / (wB : ℚ) ≤ (t : ℚ) := by
    rw [div_le_iff₀ hQwb]
    have : otsuSb hist t ≤ t * wB := histPreSum_le hist t
    exact_mod_cast this
  have hmF : ((t : ℚ) + 1) ≤
      ((otsuSumTotal hist : ℚ) - (otsuSb hist t : ℚ)) / (wF : ℚ) := by
    rw [le_div_iff₀ hQwf]
    have hsub : (otsuSumTotal hist : ℚ) - (otsuSb hist t : ℚ) =
        (histSegSum hist (t + 1) (255 - t) : ℚ) := by
      have : otsuSumTotal hist = otsuSb hist t + histSegSum hist (t + 1) (255 - t) :=
        hsplitSum
      rw [this]
      push_cast
      ring
    rw [hsub, hwf]
    have := histSegSum_ge hist (255 - t) (t + 1)
    calc ((t : ℚ) + 1) * (histSeg hist (t + 1) (255 - t) : ℚ)
        = ((t + 1) * histSeg hist (t + 1) (255 - t) : Nat) := by push_cast; ring
      _ ≤ (histSegSum hist (t + 1) (255 - t) : ℚ) := by exact_mod_cast this
  have hne : (otsuSb hist t : ℚ) / (wB : ℚ) -
      ((otsuSumTotal hist : ℚ) - (otsuSb hist t : ℚ)) / (wF : ℚ) ≠ 0 := by
    have : (otsuSb hist t : ℚ) / (wB : ℚ) <
        ((otsuSumTotal hist : ℚ) - (otsuSb hist t : ℚ)) / (wF : ℚ) := by linarith
    linarith
  have hsq : 0 < ((otsuSb hist t : ℚ) / (wB : ℚ) -
      ((otsuSumTotal hist : ℚ) - (otsuSb hist t : ℚ)) / (wF : ℚ)) ^ 2 :=
    pow_two_pos_of_ne_zero hne
  exact mul_pos (mul_pos hQwb hQwf) hsq

theorem histPre_le_total (hist : Nat → Nat) {n : Nat} (h : n ≤ 256) :
    histPre hist n ≤ otsuTotal hist := histPre_mono hist h

theorem otsuIter_succ (hist : Nat → Nat) (n : Nat) :
    otsuIter hist (n + 1) =
      otsuStep hist (otsuTotal hist) (otsuSumTotal hist) (otsuIter hist n) n := by
  rw [otsuIter, List.range_succ, List.foldl_append]
  rfl

theorem otsuHist_eq_iter (hist : Nat → Nat) :
    otsuHist hist = (otsuIter hist 256).threshold := rfl

theorem otsuVariance_eq (hist : Nat → Nat) (t : Nat) :
    otsuVariance hist t =
      (otsuWb hist t : ℚ) * ((otsuTotal hist - otsuWb hist t : Nat) : ℚ) *
        ((otsuSb hist t : ℚ) / (otsuWb hist t : ℚ) -
          ((otsuSumTotal hist : ℚ) - (otsuSb hist t : ℚ)) /
            ((otsuTotal hist - otsuWb hist t : Nat) : ℚ)) ^ 2 := rfl

theorem otsuWb_eq_histPre (hist : Nat → Nat) (t : Nat) :
    otsuWb hist t = histPre hist (t + 1) := rfl

theorem otsuSb_eq_histPreSum (hist : Nat → Nat) (t : Nat) :
    otsuSb hist t = histPreSum hist (t + 1) := rfl

theorem otsuInv_step (hist : Nat → Nat) (n : Nat) (hn : n < 256) (s : OtsuSt)
    (h : OtsuInv hist n s) :
    OtsuInv hist (n + 1) (otsuStep hist (otsuTotal hist) (otsuSumTotal hist) s n) := by
  obtain ⟨hwb, hdone, hsum, hmax⟩ := h
  have extendMax : ¬ otsuValid hist n →
      ((s.maxVariance = 0 ∧ s.threshold = 128 ∧ ∀ i, i < n + 1 → ¬ otsuValid hist i) ∨
       (otsuValid hist s.threshold ∧ s.threshold < n + 1 ∧
        s.maxVariance = otsuVariance hist s.threshold ∧ 0 < s.maxVariance ∧
        (∀ i, i < n + 1 → otsuValid hist i → otsuVariance hist i ≤ s.maxVariance) ∧
        (∀ i, i < s.threshold → otsuValid hist i →
          otsuVariance hist i < s.maxVariance))) := by
    intro hninv
    rcases hmax with ⟨h1, h2, h3⟩ | ⟨h1, h2, h3, h4, h5, h6⟩
    · refine Or.inl ⟨h1, h2, fun i hi hv => ?_⟩
      rcases Nat.lt_or_ge i n with hin | hin
      · exact h3 i hin hv
      · have hieq : i = n := by omega
        subst hieq
        exact hninv hv
    · refine Or.inr ⟨h1, by omega, h3, h4, fun i hi hv => ?_, h6⟩
      rcases Nat.lt_or_ge i n with hin | hin
      · exact h5 i hin hv
      · have hieq : i = n := by omega
        subst hieq
        exact absurd hv hninv
  by_cases hd : s.done = true
  · -- the loop already broke: the state is frozen
    have hstep : otsuStep hist (otsuTotal hist) (otsuSumTotal hist) s n = s := by
      simp [otsuStep, hd]
    rw [hstep]
    obtain ⟨hn0, htot, hpre⟩ := hdone.mp hd
    have hpre1 : histPre hist (n + 1) = otsuTotal hist := by
      have h1 : histPre hist n ≤ histPre hist (n + 1) := histPre_mono hist (by omega)
      have h2 : histPre hist (n + 1) ≤ otsuTotal hist :=
        histPre_le_total hist (n := n + 1) (by omega)
      omega
    have hninv : ¬ otsuValid hist n := by
      rw [otsuValid, otsuWb_eq_histPre]
      omega
    refine ⟨by omega, ?_, ?_, extendMax hninv⟩
    · constructor
      · intro _
        exact ⟨by omega, htot, hpre1⟩
      · intro _
        exact hd
    · intro hf
      rw [hd] at hf
      cases hf
  · rw [Bool.not_eq_true] at hd
    have hwb1 : s.wB + hist n = histPre hist (n + 1) := by rw [hwb, histPre_succ]
    by_cases hz : s.wB + hist n = 0
    · -- `continue`: the background class is still empty
      have hstep : otsuStep hist (otsuTotal hist) (otsuSumTotal hist) s n =
          { s with wB := s.wB + hist n } := by
        simp [otsuStep, hd, hz]
      rw [hstep]
      have hz' : histPre hist (n + 1) = 0 := by omega
      have hninv : ¬ otsuValid hist n := by
        rw [otsuValid, otsuWb_eq_histPre]
        omega
      refine ⟨hwb1, ?_, ?_, extendMax hninv⟩
      · show s.done = true ↔ _
        rw [hd]
        constructor
        · intro hf
          cases hf
        · rintro ⟨-, htot, hpre⟩
          omega
      · show s.done = false → s.sumB = histPreSum hist (n + 1)
        intro _
        have hs := hsum hd
        have hhn : hist n = 0 := by omega
        rw [histPreSum_succ, hhn, Nat.mul_zero]
        omega
    · by_cases hwf : otsuTotal hist - (s.wB + hist n) = 0
      · -- `break`: the foreground class is exhausted
        have hstep : otsuStep hist (otsuTotal hist) (otsuSumTotal hist) s n =
            { s with wB := s.wB + hist n, done := true } := by
          simp [otsuStep, hd, hz, hwf]
        rw [hstep]
        have hle : histPre hist (n + 1) ≤ otsuTotal hist :=
          histPre_le_total hist (n := n + 1) (by omega)
        have heq : histPre hist (n + 1) = otsuTotal hist := by omega
        have hninv : ¬ otsuValid hist n := by
          rw [otsuValid, otsuWb_eq_histPre]
          omega
        refine ⟨hwb1, ?_, ?_, extendMax hninv⟩
        · show (true = true) ↔ _
          constructor
          · intro _
            exact ⟨by omega, by omega, heq⟩
          · intro _
            rfl
        · show (true = false) → _
          intro hf
          cases hf
      · -- candidate `n` is valid: compute its variance
        have hvalid : otsuValid hist n := by
          rw [otsuValid, otsuWb_eq_histPre]
          omega
        have hsum' : s.sumB + n * hist n = histPreSum hist (n + 1) := by
          rw [hsum hd, histPreSum_succ]
        have hveq :
            ((s.sumB + n * hist n : Nat) : ℚ) / ((s.wB + hist n : Nat) : ℚ) =
              (otsuSb hist n : ℚ) / (otsuWb hist n : ℚ) ∧
            ((otsuSumTotal hist : ℚ) - ((s.sumB + n * hist n : Nat) : ℚ)) /
                ((otsuTotal hist - (s.wB + hist n) : Nat) : ℚ) =
              ((otsuSumTotal hist : ℚ) - (otsuSb hist n : ℚ)) /
                ((otsuTotal hist - otsuWb hist n : Nat) : ℚ) := by
          rw [otsuWb_eq_histPre, otsuSb_eq_histPreSum, ← hwb1, ← hsum']
          exact ⟨rfl, rfl⟩
        have hvareq :
            ((s.wB + hist n : Nat) : ℚ) *
                ((otsuTotal hist - (s.wB + hist n) : Nat) : ℚ) *
                (((s.sumB + n * hist n : Nat) : ℚ) / ((s.wB + hist n : Nat) : ℚ) -
                  ((otsuSumTotal hist : ℚ) - ((s.sumB + n * hist n : Nat) : ℚ)) /
                    ((otsuTotal hist - (s.wB + hist n) : Nat) : ℚ)) ^ 2 =
              otsuVariance hist n := by
          rw [otsuVariance_eq, otsuWb_eq_histPre, otsuSb_eq_histPreSum, ← hwb1, ← hsum']
        have hvpos : 0 < otsuVariance hist n :=
          otsuVariance_pos hist n (by omega) hvalid
        by_cases hcmp : s.maxVariance <
            ((s.wB + hist n : Nat) : ℚ) *
              ((otsuTotal hist - (s.wB + hist n) : Nat) : ℚ) *
              (((s.sumB + n * hist n : Nat) : ℚ) / ((s.wB + hist n : Nat) : ℚ) -
                ((otsuSumTotal hist : ℚ) - ((s.sumB + n * hist n : Nat) : ℚ)) /
                  ((otsuTotal hist - (s.wB + hist n) : Nat) : ℚ)) ^ 2
        · have hstep : otsuStep hist (otsuTotal hist) (otsuSumTotal hist) s n =
              ⟨s.sumB + n * hist n, s.wB + hist n,
                ((s.wB + hist n : Nat) : ℚ) *
                  ((otsuTotal hist - (s.wB + hist n) : Nat) : ℚ) *
                  (((s.sumB + n * hist n : Nat) : ℚ) / ((s.wB + hist n : Nat) : ℚ) -
                    ((otsuSumTotal hist : ℚ) - ((s.sumB + n * hist n : Nat) : ℚ)) /
                      ((otsuTotal hist - (s.wB + hist n) : Nat) : ℚ)) ^ 2,
                n, false⟩ := by
            simp only [otsuStep, hd, Bool.false_eq_true, if_false, hz, if_neg hz, hwf,
              if_neg hwf, if_pos hcmp]
          rw [hstep]
          refine ⟨hwb1, ?_, ?_, ?_⟩
          · show (false = true) ↔ _
            constructor
            · intro hf
              cases hf
            · rintro ⟨-, htot, hpre⟩
              omega
          · show (false = false) → _
            intro _
            exact hsum'
          · refine Or.inr ⟨?_, by exact Nat.lt_succ_self n, ?_, ?_, ?_, ?_⟩
            · show otsuValid hist n
              exact hvalid
            · show _ = otsuVariance hist n
              exact hvareq
            · show (0 : ℚ) < _
              rw [hvareq]
              exact hvpos
            · intro i hi hv
              show otsuVariance hist i ≤ _
              rw [hvareq]
              rcases Nat.lt_or_ge i n with hin | hin
              · rcases hmax with ⟨h1, h2, h3⟩ | ⟨h1, h2, h3, h4, h5, h6⟩
                · exact absurd hv (h3 i hin)
                · have hle5 := h5 i hin hv
                  have hlt : s.maxVariance < otsuVariance hist n := by
                    rw [← hvareq]
                    exact hcmp
                  linarith
              · have hieq : i = n := by omega
                subst hieq
                exact le_refl _
            · intro i hi hv
              have hin : i < n := hi
              show otsuVariance hist i < _
              rw [hvareq]
              have hlt : s.maxVariance < otsuVariance hist n := by
                rw [← hvareq]
                exact hcmp
              rcases hmax with ⟨h1, h2, h3⟩ | ⟨h1, h2, h3, h4, h5, h6⟩
              · exact absurd hv (h3 i hin)
              · have hle5 := h5 i hin hv
                linarith
        · have hstep : otsuStep hist (otsuTotal hist) (otsuSumTotal hist) s n =
              { s with sumB := s.sumB + n * hist n, wB := s.wB + hist n } := by
            simp only [otsuStep, hd, Bool.false_eq_true, if_false, hz, if_neg hz, hwf,
              if_neg hwf, if_neg hcmp]
          rw [hstep]
          have hvle : otsuVariance hist n ≤ s.maxVariance := by
            rw [← hvareq]
            exact le_of_not_lt hcmp
          rcases hmax with ⟨h1, h2, h3⟩ | ⟨h1, h2, h3, h4, h5, h6⟩
          · exfalso
            rw [h1] at hvle
            linarith
          · refine ⟨hwb1, ?_, ?_, ?_⟩
            · show s.done = true ↔ _
              rw [hd]
              constructor
              · intro hf
                cases hf
              · rintro ⟨-, htot, hpre⟩
                omega
            · show s.done = false → _
              intro _
              exact hsum'
            · refine Or.inr ⟨h1, by exact Nat.lt_succ_of_lt h2, h3, h4,
                fun i hi hv => ?_, h6⟩
              rcases Nat.lt_or_ge i n with hin | hin
              · exact h5 i hin hv
              · have hieq : i = n := by omega
                subst hieq
                exact hvle

theorem otsuIter_inv (hist : Nat → Nat) : ∀ n, n ≤ 256 → OtsuInv hist n (otsuIter hist n) := by
  intro n
  induction n with
  | zero =>
    intro _
    refine ⟨rfl, ?_, fun _ => rfl, Or.inl ⟨rfl, rfl, by omega⟩⟩
    simp [otsuIter]
  | succ n ih =>
    intro h
    rw [otsuIter_succ]
    exact otsuInv_step hist n (by omega) _ (ih (by omega))

/-- The histogram of a degenerate (single-valued) image is a point mass. -/
theorem histOf_replicate (npix : Nat) (v : Fin 256) (i : Nat) :
    histOf (List.replicate npix v) i = if (v : Nat) = i then npix else 0 := by
  induction npix with
  | zero => simp [histOf]
  | succ m ih =>
    rw [histOf] at ih ⊢
    rw [List.replicate_succ, List.countP_cons, ih]
    by_cases hv : (v : Nat) = i
    · simp [hv]
    · simp [hv]

/-- Prefix sums of the point-mass histogram. -/
theorem histPre_replicate (npix : Nat) (v : Fin 256) (n : Nat) :
    histPre (histOf (List.replicate npix v)) n = if (v : Nat) < n then npix else 0 := by
  induction n with
  | zero => simp [histPre]
  | succ n ih =>
    rw [histPre_succ, ih, histOf_replicate]
    rcases Nat.lt_trichotomy (v : Nat) n with hlt | heq | hgt
    · have h1 : (v : Nat) < n + 1 := by omega
      have h2 : ¬ (v : Nat) = n := by omega
      rw [if_pos hlt, if_neg h2, if_pos h1]
      omega
    · have h1 : ¬ (v : Nat) < n := by omega
      have h2 : (v : Nat) < n + 1 := by omega
      rw [if_neg h1, if_pos heq, if_pos h2]
      omega
    · have h1 : ¬ (v : Nat) < n := by omega
      have h2 : ¬ (v : Nat) = n := by omega
      have h3 : ¬ (v : Nat) < n + 1 := by omega
      rw [if_neg h1, if_neg h2, if_neg h3]

theorem mkTok_append (ds r : List Char) :
    mkTok ds ++ r = escC :: '[' :: ds ++ 'm' :: r := by
  simp [mkTok]

theorem takeToM_cons (c : Char) (r : List Char) :
    takeToM (c :: r) = if c = 'm' then some ([c], r)
      else match takeToM r with
        | some (a, b) => some (c :: a, b)
        | none => none := rfl

theorem takeToM_tok (ds : List Char) (hds : ∀ c ∈ ds, isCsiParamByte c = true)
    (r : List Char) :
    takeToM (escC :: '[' :: ds ++ 'm' :: r) = some (mkTok ds, r) := by
  have hmid : takeToM (ds ++ 'm' :: r) = some (ds ++ ['m'], r) := by
    induction ds with
    | nil => simp [takeToM_cons]
    | cons d ds ih =>
      have hd : d ≠ 'm' := by
        have hmem := hds d (by simp)
        intro hdm
        subst hdm
        simp [isCsiParamByte] at hmem
      rw [List.cons_append, takeToM_cons, if_neg hd,
        ih (fun c hc => hds c (by simp [hc]))]
      rfl
  simp only [List.cons_append]
  rw [takeToM_cons, if_neg (by decide : ¬ escC = 'm'), takeToM_cons,
    if_neg (by decide : ¬ '[' = 'm'), hmid]
  simp [mkTok]

theorem dropWhile_length_le (p : Char → Bool) : ∀ l : List Char,
    (l.dropWhile p).length ≤ l.length := by
  intro l
  induction l with
  | nil => simp
  | cons c r ih =>
    by_cases hp : p c
    · rw [List.dropWhile_cons_of_pos hp]
      simp only [List.length_cons]
      omega
    · rw [List.dropWhile_cons_of_neg hp]

theorem tryCsi_length (l r : List Char) (h : tryCsi l = some r) :
    r.length ≤ l.length := by
  rw [tryCsi] at h
  have h1 := dropWhile_length_le isCsiParamByte l
  have h2 := dropWhile_length_le isCsiIntermByte (l.dropWhile isCsiParamByte)
  rcases hdw : (l.dropWhile isCsiParamByte).dropWhile isCsiIntermByte
    with - | ⟨cf, rf⟩
  · rw [hdw] at h
    simp at h
  · rw [hdw] at h
    rw [hdw] at h2
    simp only [List.length_cons] at h2
    by_cases hcf : isCsiFinalByte cf = true
    · simp only [hcf, if_true, Option.some.injEq] at h
      subst h
      omega
    · simp only [hcf, Bool.false_eq_true, if_false] at h
      exact absurd h (by simp)

theorem tryCsi_tok (ds : List Char) (hds : ∀ c ∈ ds, isCsiParamByte c = true)
    (r : List Char) : tryCsi (ds ++ 'm' :: r) = some r := by
  rw [tryCsi]
  have hdrop : (ds ++ 'm' :: r).dropWhile isCsiParamByte = 'm' :: r := by
    induction ds with
    | nil =>
      rw [List.nil_append, List.dropWhile_cons_of_neg]
      decide
    | cons d ds ih =>
      rw [List.cons_append, List.dropWhile_cons_of_pos (hds d (by simp)),
        ih (fun c hc => hds c (by simp [hc]))]
  simp only [hdrop, List.dropWhile_cons_of_neg (by decide : ¬ isCsiIntermByte 'm' = true),
    (by decide : isCsiFinalByte 'm' = true), if_true]

theorem stripAnsiFuel_irrel : ∀ f g (l : List Char), l.length ≤ f → l.length ≤ g →
    stripAnsiFuel f l = stripAnsiFuel g l := by
  intro f
  induction f with
  | zero =>
    intro g l hf _
    have hnil : l = [] := List.length_eq_zero.mp (by omega)
    subst hnil
    cases g <;> rfl
  | succ f ih =>
    intro g l hf hg
    cases l with
    | nil => cases g <;> rfl
    | cons c rest =>
      cases g with
      | zero => simp at hg
      | succ g =>
        simp only [List.length_cons] at hf hg
        by_cases hc : c = escC
        · subst hc
          cases rest with
          | nil => simp [stripAnsiFuel]
          | cons c2 r2 =>
            simp only [List.length_cons] at hf hg
            by_cases hbr : c2 = '['
            · subst hbr
              cases htc : tryCsi r2 with
              | some r3 =>
                have hlen : r3.length ≤ r2.length := tryCsi_length r2 r3 htc
                simp only [stripAnsiFuel, if_pos rfl,
                  (by decide : isFeByte '[' = false), Bool.false_eq_true, if_false,
                  if_true, htc]
                exact ih g r3 (by omega) (by omega)
              | none =>
                simp only [stripAnsiFuel, if_pos rfl,
                  (by decide : isFeByte '[' = false), Bool.false_eq_true, if_false,
                  if_true, htc]
                rw [ih g ('[' :: r2) (by simp only [List.length_cons]; omega)
                  (by simp only [List.length_cons]; omega)]
            · by_cases hfe : isFeByte c2 = true
              · simp only [stripAnsiFuel, if_pos rfl, hfe, if_true]
                exact ih g r2 (by omega) (by omega)
              · simp only [stripAnsiFuel, if_pos rfl, hfe, Bool.false_eq_true, if_false,
                  hbr]
                rw [ih g (c2 :: r2) (by simp only [List.length_cons]; omega)
                  (by simp only [List.length_cons]; omega)]
        · simp only [stripAnsiFuel, if_neg hc]
          rw [ih g rest (by omega) (by omega)]

theorem stripAnsi_lit (c : Char) (hc : c ≠ escC) (r : List Char) :
    stripAnsi (c :: r) = c :: stripAnsi r := by
  rw [stripAnsi, stripAnsi]
  simp only [List.length_cons, stripAnsiFuel, if_neg hc]

theorem stripAnsi_tok (ds : List Char) (hds : ∀ c ∈ ds, isCsiParamByte c = true)
    (r : List Char) : stripAnsi (escC :: '[' :: ds ++ 'm' :: r) = stripAnsi r := by
  rw [stripAnsi]
  simp only [List.cons_append]
  rw [show (escC :: '[' :: (ds ++ 'm' :: r)).length = ds.length + 2 + r.length + 1 from by
    simp only [List.length_cons, List.length_append]
    omega]
  simp only [stripAnsiFuel, if_pos rfl, (by decide : isFeByte '[' = false),
    Bool.false_eq_true, if_false, if_true, tryCsi_tok ds hds r]
  rw [stripAnsi]
  exact stripAnsiFuel_irrel _ _ r (by omega) (le_refl _)

/-- A CSI parameter byte is not the escape character. -/
theorem param_ne_esc {c : Char} (h : isCsiParamByte c = true) : c ≠ escC := by
  intro hc
  rw [hc] at h
  exact absurd h (by decide)

/-- A CSI parameter byte is not a newline. -/
theorem param_ne_nl {c : Char} (h : isCsiParamByte c = true) : c ≠ '\n' := by
  intro hc
  rw [hc] at h
  exact absurd h (by decide)

/-- `takeToM` splits its input and strictly shrinks the remainder. -/
theorem takeToM_some : ∀ l a b, takeToM l = some (a, b) → l = a ++ b ∧ b.length < l.length := by
  intro l
  induction l with
  | nil =>
    intro a b h
    exact absurd h (by simp [takeToM])
  | cons c r ih =>
    intro a b h
    rw [takeToM_cons] at h
    by_cases hm : c = 'm'
    · rw [if_pos hm] at h
      simp only [Option.some.injEq, Prod.mk.injEq] at h
      obtain ⟨ha, hb⟩ := h
      subst ha
      subst hb
      exact ⟨rfl, by simp⟩
    · rw [if_neg hm] at h
      cases htr : takeToM r with
      | none =>
        rw [htr] at h
        exact absurd h (by simp)
      | some p =>
        obtain ⟨a1, b1⟩ := p
        rw [htr] at h
        simp only [Option.some.injEq, Prod.mk.injEq] at h
        obtain ⟨ha, hb⟩ := h
        obtain ⟨he, hl⟩ := ih a1 b1 htr
        subst ha
        subst hb
        constructor
        · rw [List.cons_append, ← he]
        · simp only [List.length_cons]
          omega

/-- The `compress_frame` loop is fuel-irrelevant above the input length. -/
theorem compressGo_irrel : ∀ f g s (l : List Char), l.length ≤ f → l.length ≤ g →
    compressGo f s l = compressGo g s l := by
  intro f
  induction f with
  | zero =>
    intro g s l hf _
    have hnil : l = [] := List.length_eq_zero.mp (by omega)
    subst hnil
    cases g <;> rfl
  | succ f ih =>
    intro g s l hf hg
    cases l with
    | nil => cases g <;> rfl
    | cons c rest =>
      cases g with
      | zero => simp at hg
      | succ g =>
        simp only [List.length_cons] at hf hg
        simp only [compressGo]
        by_cases hs : startsEscBr (c :: rest) = true
        · simp only [hs, if_true]
          cases htk : takeToM (c :: rest) with
          | none =>
            exact ih g (pushBuf s c) rest (by omega) (by omega)
          | some p =>
            obtain ⟨chunk, r2⟩ := p
            have hlen := (takeToM_some _ _ _ htk).2
            simp only [List.length_cons] at hlen
            exact ih g (chunkStep s chunk) r2 (by omega) (by omega)
        · simp only [hs, Bool.false_eq_true, if_false]
          exact ih g (pushBuf s c) rest (by omega) (by omega)

theorem startsEscBr_false {c : Char} (hc : c ≠ escC) (r : List Char) :
    startsEscBr (c :: r) = false := by
  cases r with
  | nil => rfl
  | cons b rs => simp [startsEscBr, hc]

theorem compressGoA_nil (s : CompSt) : compressGoA s [] = s := rfl

/-- Loop step on a literal character: it is buffered. -/
theorem compressGoA_lit (s : CompSt) {c : Char} (hc : c ≠ escC) (r : List Char) :
    compressGoA s (c :: r) = compressGoA (pushBuf s c) r := by
  show compressGo (r.length + 1 + 1) s (c :: r) = _
  simp only [compressGo, startsEscBr_false hc, Bool.false_eq_true, if_false]
  rfl

/-- Loop step on a complete color token: the whole chunk is consumed and
dispatched to `chunkStep`. -/
theorem compressGoA_tok (s : CompSt) (ds : List Char)
    (hds : ∀ c ∈ ds, isCsiParamByte c = true) (r : List Char) :
    compressGoA s (escC :: '[' :: ds ++ 'm' :: r) = compressGoA (chunkStep s (mkTok ds)) r := by
  have hstart : startsEscBr (escC :: '[' :: (ds ++ 'm' :: r)) = true := by
    simp [startsEscBr]
  rw [compressGoA]
  simp only [List.cons_append]
  rw [show (escC :: '[' :: (ds ++ 'm' :: r)).length + 1 = (ds.length + r.length + 3) + 1 from by
    simp only [List.length_cons, List.length_append]
    omega]
  simp only [compressGo, hstart, if_true]
  rw [show takeToM (escC :: '[' :: (ds ++ 'm' :: r)) = some (mkTok ds, r) from by
    have h := takeToM_tok ds hds r
    simpa [List.cons_append] using h]
  exact compressGo_irrel (ds.length + r.length + 3) (r.length + 1)
    (chunkStep s (mkTok ds)) r (by omega) (by omega)

theorem wf_mkTok_append {ds : List Char} (hds : ∀ c ∈ ds, isCsiParamByte c = true)
    {r : List Char} (hr : WfTok r) : WfTok (mkTok ds ++ r) := by
  rw [mkTok_append]
  exact WfTok.tok hds hr

/-- Well-formed token lists are closed under concatenation. -/
theorem wf_append {a : List Char} (ha : WfTok a) : ∀ b, WfTok b → WfTok (a ++ b) := by
  induction ha with
  | nil => intro b hb; exact hb
  | @lit c r hc _ ih =>
    intro b hb
    rw [List.cons_append]
    exact WfTok.lit hc (ih b hb)
  | @tok ds r hds _ ih =>
    intro b hb
    rw [← mkTok_append, List.append_assoc]
    exact wf_mkTok_append hds (ih b hb)

/-- An escape-free list is a (trivially) well-formed token list. -/
theorem wf_noEsc : ∀ {l : List Char}, noEsc l → WfTok l := by
  intro l
  induction l with
  | nil => intro _; exact WfTok.nil
  | cons c r ih =>
    intro h
    exact WfTok.lit (h c (by simp)) (ih (fun d hd => h d (by simp [hd])))

theorem stripAnsi_mkTok_append (ds : List Char) (hds : ∀ c ∈ ds, isCsiParamByte c = true)
    (r : List Char) : stripAnsi (mkTok ds ++ r) = stripAnsi r := by
  rw [mkTok_append]
  exact stripAnsi_tok ds hds r

/-- `strip_ansi` distributes over concatenation when the left part is a
well-formed token list. -/
theorem stripAnsi_append_wf {a : List Char} (ha : WfTok a) :
    ∀ b, stripAnsi (a ++ b) = stripAnsi a ++ stripAnsi b := by
  induction ha with
  | nil =>
    intro b
    rw [List.nil_append]
    rfl
  | @lit c r hc _ ih =>
    intro b
    rw [List.cons_append, stripAnsi_lit c hc (r ++ b), ih b, stripAnsi_lit c hc r,
      List.cons_append]
  | @tok ds r hds _ ih =>
    intro b
    rw [← mkTok_append, List.append_assoc, stripAnsi_mkTok_append ds hds,
      stripAnsi_mkTok_append ds hds, ih b]

/-- `strip_ansi` is the identity on escape-free lists. -/
theorem stripAnsi_noEsc : ∀ {l : List Char}, noEsc l → stripAnsi l = l := by
  intro l
  induction l with
  | nil => intro _; rfl
  | cons c r ih =>
    intro h
    rw [stripAnsi_lit c (h c (by simp)), ih (fun d hd => h d (by simp [hd]))]

theorem reset_not_prefix {c : Char} (hc : c ≠ escC) (r : List Char) :
    resetTok.isPrefixOf (c :: r) = false := by
  have hbe : (escC == c) = false := by
    rw [beq_eq_false_iff_ne]
    exact fun he => hc he.symm
  simp [resetTok, List.isPrefixOf, hbe]

theorem countR_cons_ne {c : Char} (hc : c ≠ escC) (r : List Char) :
    countR (c :: r) = countR r := by
  rw [countR, reset_not_prefix hc]
  simp

theorem countR_noEsc_append : ∀ (a : List Char), noEsc a → ∀ x, countR (a ++ x) = countR x := by
  intro a
  induction a with
  | nil => intro _ x; rfl
  | cons c r ih =>
    intro ha x
    rw [List.cons_append, countR_cons_ne (ha c (by simp)),
      ih (fun d hd => ha d (by simp [hd])) x]

theorem countR_noEsc {l : List Char} (h : noEsc l) : countR l = 0 := by
  have h0 := countR_noEsc_append l h []
  rw [List.append_nil] at h0
  rw [h0]
  rfl

/-- Whether the reset token sits at the front of a color token followed by
anything: exactly when the parameters are the single digit 0. -/
theorem reset_prefix_tok (ds : List Char) (hds : ∀ c ∈ ds, isCsiParamByte c = true)
    (x : List Char) :
    resetTok.isPrefixOf (escC :: '[' :: (ds ++ 'm' :: x)) =
      if ds = ['0'] then true else false := by
  cases ds with
  | nil => simp [resetTok, List.isPrefixOf]
  | cons d ds2 =>
    cases ds2 with
    | nil =>
      by_cases hd : d = '0'
      · subst hd
        simp [resetTok, List.isPrefixOf]
      · simp [resetTok, List.isPrefixOf, hd, Ne.symm hd]
    | cons d2 ds3 =>
      have h2 : d2 ≠ 'm' := by
        have hp := hds d2 (by simp)
        intro he
        rw [he] at hp
        exact absurd hp (by decide)
      simp [resetTok, List.isPrefixOf, Ne.symm h2]

/-- Reset count of a color token followed by anything. -/
theorem countR_mkTok_append (ds : List Char) (hds : ∀ c ∈ ds, isCsiParamByte c = true)
    (x : List Char) :
    countR (mkTok ds ++ x) = (if ds = ['0'] then 1 else 0) + countR x := by
  rw [mkTok_append]
  simp only [List.cons_append]
  rw [countR, reset_prefix_tok ds hds x,
    countR_cons_ne (by decide : '[' ≠ escC),
    countR_noEsc_append ds (fun c hc => param_ne_esc (hds c hc)) ('m' :: x),
    countR_cons_ne (by decide : 'm' ≠ escC)]
  by_cases hd : ds = ['0'] <;> simp [hd]

/-- Reset counting distributes over concatenation when the left part is a
well-formed token list. -/
theorem countR_append_wf {a : List Char} (ha : WfTok a) :
    ∀ b, countR (a ++ b) = countR a + countR b := by
  induction ha with
  | nil =>
    intro b
    rw [List.nil_append]
    simp [countR]
  | @lit c r hc _ ih =>
    intro b
    rw [List.cons_append, countR_cons_ne hc, ih b, countR_cons_ne hc]
  | @tok ds r hds _ ih =>
    intro b
    rw [← mkTok_append, List.append_assoc, countR_mkTok_append ds hds,
      countR_mkTok_append ds hds, ih b]
    omega

theorem wf_flatten : ∀ {L : List (List Char)}, (∀ e ∈ L, WfTok e) → WfTok L.flatten := by
  intro L
  induction L with
  | nil => intro _; exact WfTok.nil
  | cons e L ih =>
    intro h
    rw [List.flatten_cons]
    exact wf_append (h e (by simp)) _ (ih (fun x hx => h x (by simp [hx])))

theorem wf_tokOpt_getD {o : Option (List Char)} (h : TokOpt o) : WfTok (o.getD []) := by
  rcases h with h | ⟨ds, hds, _, h⟩
  · subst h
    exact WfTok.nil
  · subst h
    show WfTok (mkTok ds)
    have hw := wf_mkTok_append hds WfTok.nil
    rwa [List.append_nil] at hw

theorem stripAnsi_tokOpt_getD {o : Option (List Char)} (h : TokOpt o) :
    stripAnsi (o.getD []) = [] := by
  rcases h with h | ⟨ds, hds, _, h⟩
  · subst h
    rfl
  · subst h
    show stripAnsi (mkTok ds) = []
    have hs := stripAnsi_mkTok_append ds hds []
    rw [List.append_nil] at hs
    exact hs

theorem countR_tokOpt_getD {o : Option (List Char)} (h : TokOpt o) :
    countR (o.getD []) = 0 := by
  rcases h with h | ⟨ds, hds, hne, h⟩
  · subst h
    rfl
  · subst h
    show countR (mkTok ds) = 0
    have hc := countR_mkTok_append ds hds []
    rw [List.append_nil, if_neg hne] at hc
    exact hc

theorem wf_mkTok {ds : List Char} (hds : ∀ c ∈ ds, isCsiParamByte c = true) :
    WfTok (mkTok ds) := by
  have hw := wf_mkTok_append hds WfTok.nil
  rwa [List.append_nil] at hw

theorem stripAnsi_mkTok {ds : List Char} (hds : ∀ c ∈ ds, isCsiParamByte c = true) :
    stripAnsi (mkTok ds) = [] := by
  have hs := stripAnsi_mkTok_append ds hds []
  rw [List.append_nil] at hs
  exact hs

theorem countR_mkTok {ds : List Char} (hds : ∀ c ∈ ds, isCsiParamByte c = true) :
    countR (mkTok ds) = if ds = ['0'] then 1 else 0 := by
  have hc := countR_mkTok_append ds hds []
  rw [List.append_nil] at hc
  exact hc

theorem wf_stylePfx {bg fg : Option (List Char)} (hbg : TokOpt bg) (hfg : TokOpt fg) :
    WfTok (stylePfx bg fg) :=
  wf_append (wf_tokOpt_getD hbg) _ (wf_tokOpt_getD hfg)

theorem stripAnsi_stylePfx {bg fg : Option (List Char)} (hbg : TokOpt bg) (hfg : TokOpt fg) :
    stripAnsi (stylePfx bg fg) = [] := by
  rw [stylePfx, stripAnsi_append_wf (wf_tokOpt_getD hbg), stripAnsi_tokOpt_getD hbg,
    stripAnsi_tokOpt_getD hfg]
  rfl

theorem countR_stylePfx {bg fg : Option (List Char)} (hbg : TokOpt bg) (hfg : TokOpt fg) :
    countR (stylePfx bg fg) = 0 := by
  rw [stylePfx, countR_append_wf (wf_tokOpt_getD hbg), countR_tokOpt_getD hbg,
    countR_tokOpt_getD hfg]

theorem strip_flatten_append {L : List (List Char)} (hL : ∀ x ∈ L, WfTok x) (e : List Char) :
    stripAnsi (L ++ [e]).flatten = stripAnsi L.flatten ++ stripAnsi e := by
  rw [List.flatten_append, List.flatten_cons, List.flatten_nil, List.append_nil,
    stripAnsi_append_wf (wf_flatten hL)]

theorem countR_flatten_append {L : List (List Char)} (hL : ∀ x ∈ L, WfTok x) (e : List Char) :
    countR (L ++ [e]).flatten = countR L.flatten + countR e := by
  rw [List.flatten_append, List.flatten_cons, List.flatten_nil, List.append_nil,
    countR_append_wf (wf_flatten hL)]

theorem mem_append_entry {L : List (List Char)} (hL : ∀ x ∈ L, WfTok x) {e : List Char}
    (he : WfTok e) : ∀ x ∈ L ++ [e], WfTok x := by
  intro x hx
  rcases List.mem_append.mp hx with h1 | h2
  · exact hL x h1
  · rw [List.mem_singleton.mp h2]
    exact he

/-- Flushing the buffer preserves the invariant, the visible content and the
reset count, and leaves an empty buffer and unchanged colors. -/
theorem flushSt_spec {s : CompSt} (h : Inv s) :
    Inv (flushSt s) ∧ vis (flushSt s) = vis s ∧ crs (flushSt s) = crs s ∧
      (flushSt s).buf = [] ∧ (flushSt s).bg = s.bg ∧ (flushSt s).fg = s.fg := by
  obtain ⟨hcomp, hbuf, hbg, hfg⟩ := h
  by_cases hb : s.buf = []
  · rw [flushSt, if_pos hb]
    exact ⟨⟨hcomp, hbuf, hbg, hfg⟩, rfl, rfl, hb, rfl, rfl⟩
  · rw [flushSt, if_neg hb]
    have hwfe : WfTok (stylePfx s.bg s.fg ++ s.buf) :=
      wf_append (wf_stylePfx hbg hfg) _ (wf_noEsc hbuf)
    refine ⟨⟨mem_append_entry hcomp hwfe, fun c hc => absurd hc (List.not_mem_nil c),
      hbg, hfg⟩, ?_, ?_, rfl, rfl, rfl⟩
    · show stripAnsi (s.comp ++ [stylePfx s.bg s.fg ++ s.buf]).flatten ++ [] =
        stripAnsi s.comp.flatten ++ s.buf
      rw [List.append_nil, strip_flatten_append hcomp,
        stripAnsi_append_wf (wf_stylePfx hbg hfg), stripAnsi_stylePfx hbg hfg,
        stripAnsi_noEsc hbuf, List.nil_append]
    · show countR (s.comp ++ [stylePfx s.bg s.fg ++ s.buf]).flatten =
        countR s.comp.flatten
      rw [countR_flatten_append hcomp, countR_append_wf (wf_stylePfx hbg hfg),
        countR_stylePfx hbg hfg, countR_noEsc hbuf]
      omega

theorem mkTok_eq_reset {ds : List Char} : mkTok ds = resetTok ↔ ds = ['0'] := by
  constructor
  · intro h
    rw [mkTok, resetTok] at h
    simp only [List.cons_append] at h
    have h2 : ds ++ ['m'] = ['0'] ++ ['m'] := by
      simpa using h
    have h3 := congrArg List.dropLast h2
    rwa [List.dropLast_concat, List.dropLast_concat] at h3
  · intro h
    subst h
    rfl

theorem pushBuf_inv {s : CompSt} (h : Inv s) {c : Char} (hc : c ≠ escC) :
    Inv (pushBuf s c) := by
  obtain ⟨h1, h2, h3, h4⟩ := h
  refine ⟨h1, ?_, h3, h4⟩
  intro d hd
  rcases List.mem_append.mp hd with hmem | hmem
  · exact h2 d hmem
  · rw [List.mem_singleton.mp hmem]
    exact hc

/-- Dispatching one complete color token chunk preserves the invariant and the
visible content, and adds exactly the chunk's reset count. -/
theorem chunkStep_spec {s : CompSt} (h : Inv s) (ds : List Char)
    (hds : ∀ c ∈ ds, isCsiParamByte c = true) :
    Inv (chunkStep s (mkTok ds)) ∧ vis (chunkStep s (mkTok ds)) = vis s ∧
      crs (chunkStep s (mkTok ds)) = crs s + (if ds = ['0'] then 1 else 0) := by
  have h0 := h
  obtain ⟨hcomp0, hbuf0, hbg0, hfg0⟩ := h0
  obtain ⟨hInv1, hvis1, hcrs1, hbuf1, hbg1, hfg1⟩ := flushSt_spec h
  obtain ⟨hcomp1, hbufI1, hbgI1, hfgI1⟩ := hInv1
  by_cases hrst : mkTok ds = resetTok
  · have hds0 : ds = ['0'] := mkTok_eq_reset.mp hrst
    rw [chunkStep, if_pos hrst]
    refine ⟨⟨mem_append_entry hcomp1 (wf_mkTok hds), hbufI1, Or.inl rfl, Or.inl rfl⟩,
      ?_, ?_⟩
    · show stripAnsi ((flushSt s).comp ++ [mkTok ds]).flatten ++ (flushSt s).buf = vis s
      rw [strip_flatten_append hcomp1, stripAnsi_mkTok hds, List.append_nil]
      exact hvis1
    · show countR ((flushSt s).comp ++ [mkTok ds]).flatten =
        crs s + (if ds = ['0'] then 1 else 0)
      rw [countR_flatten_append hcomp1, countR_mkTok hds]
      show crs (flushSt s) + (if ds = ['0'] then 1 else 0) =
        crs s + (if ds = ['0'] then 1 else 0)
      rw [hcrs1]
  · have hne0 : ds ≠ ['0'] := fun hd => hrst (mkTok_eq_reset.mpr hd)
    by_cases hbg48 : isBg48 (mkTok ds) = true
    · rw [chunkStep, if_neg hrst, if_pos hbg48]
      by_cases hcond : s.bg ≠ some (mkTok ds) ∧ s.buf ≠ []
      · rw [if_pos hcond]
        refine ⟨⟨hcomp1, hbufI1, Or.inr ⟨ds, hds, hne0, rfl⟩, hfgI1⟩, ?_, ?_⟩
        · exact hvis1
        · rw [if_neg hne0]
          exact hcrs1
      · rw [if_neg hcond]
        refine ⟨⟨hcomp0, hbuf0, Or.inr ⟨ds, hds, hne0, rfl⟩, hfg0⟩, rfl, ?_⟩
        rw [if_neg hne0]
        rfl
    · by_cases hfg38 : isFg38 (mkTok ds) = true
      · rw [chunkStep, if_neg hrst, if_neg hbg48, if_pos hfg38]
        by_cases hcond : s.fg ≠ some (mkTok ds) ∧ s.buf ≠ []
        · rw [if_pos hcond]
          refine ⟨⟨hcomp1, hbufI1, hbgI1, Or.inr ⟨ds, hds, hne0, rfl⟩⟩, ?_, ?_⟩
          · exact hvis1
          · rw [if_neg hne0]
            exact hcrs1
        · rw [if_neg hcond]
          refine ⟨⟨hcomp0, hbuf0, hbg0, Or.inr ⟨ds, hds, hne0, rfl⟩⟩, rfl, ?_⟩
          rw [if_neg hne0]
          rfl
      · rw [chunkStep, if_neg hrst, if_neg hbg48, if_neg hfg38]
        refine ⟨⟨mem_append_entry hcomp1 (wf_mkTok hds), hbufI1, hbgI1, hfgI1⟩, ?_, ?_⟩
        · show stripAnsi ((flushSt s).comp ++ [mkTok ds]).flatten ++ (flushSt s).buf = vis s
          rw [strip_flatten_append hcomp1, stripAnsi_mkTok hds, List.append_nil]
          exact hvis1
        · show countR ((flushSt s).comp ++ [mkTok ds]).flatten =
            crs s + (if ds = ['0'] then 1 else 0)
          rw [countR_flatten_append hcomp1, countR_mkTok hds]
          show crs (flushSt s) + (if ds = ['0'] then 1 else 0) =
            crs s + (if ds = ['0'] then 1 else 0)
          rw [hcrs1]

/-- Master invariant of the `compress_frame` loop on well-formed input: the
invariant is maintained, the visible content is extended by exactly the
stripped input, and the reset count by exactly the input's reset count. -/
theorem compressGoA_spec {rest : List Char} (hwf : WfTok rest) :
    ∀ s, Inv s →
      Inv (compressGoA s rest) ∧
      vis (compressGoA s rest) = vis s ++ stripAnsi rest ∧
      crs (compressGoA s rest) = crs s + countR rest := by
  induction hwf with
  | nil =>
    intro s hs
    rw [compressGoA_nil]
    refine ⟨hs, ?_, ?_⟩
    · rw [show stripAnsi ([] : List Char) = [] from rfl, List.append_nil]
    · rw [show countR ([] : List Char) = 0 from rfl]
      omega
  | @lit c r hc hwr ih =>
    intro s hs
    rw [compressGoA_lit s hc r]
    obtain ⟨hI, hv, hcr⟩ := ih (pushBuf s c) (pushBuf_inv hs hc)
    refine ⟨hI, ?_, ?_⟩
    · rw [hv, stripAnsi_lit c hc r]
      show (stripAnsi s.comp.flatten ++ (s.buf ++ [c])) ++ stripAnsi r =
        (stripAnsi s.comp.flatten ++ s.buf) ++ (c :: stripAnsi r)
      simp [List.append_assoc]
    · rw [hcr, countR_cons_ne hc]
      rfl
  | @tok ds r hds hwr ih =>
    intro s hs
    rw [compressGoA_tok s ds hds r]
    obtain ⟨hI1, hv1, hc1⟩ := chunkStep_spec hs ds hds
    obtain ⟨hI, hv, hcr⟩ := ih (chunkStep s (mkTok ds)) hI1
    refine ⟨hI, ?_, ?_⟩
    · rw [hv, hv1, ← mkTok_append, stripAnsi_mkTok_append ds hds]
    · rw [hcr, hc1, ← mkTok_append, countR_mkTok_append ds hds]
      omega

theorem flatten_append_single (L : List (List Char)) (e : List Char) :
    (L ++ [e]).flatten = L.flatten ++ e := by
  rw [List.flatten_append, List.flatten_cons, List.flatten_nil, List.append_nil]

theorem flatten_getLast_suffix : ∀ {L : List (List Char)} {e : List Char},
    L.getLast? = some e → ∃ p, L.flatten = p ++ e := by
  intro L
  induction L with
  | nil =>
    intro e h
    exact absurd h (by simp)
  | cons a L ih =>
    intro e h
    cases L with
    | nil =>
      simp only [List.getLast?_singleton, Option.some.injEq] at h
      subst h
      exact ⟨[], by simp⟩
    | cons b L2 =>
      rw [List.getLast?_cons_cons] at h
      obtain ⟨p, hp⟩ := ih h
      exact ⟨a ++ p, by rw [List.flatten_cons, hp, List.append_assoc]⟩

theorem wf_resetTok : WfTok resetTok := @wf_mkTok ['0'] (by decide)

/-- `compressFinish` under the invariant: entries stay well-formed, the
stripped output equals the state's visible content, and no emitted reset is
lost (at most one extra reset is appended). -/
theorem compressFinish_spec {s : CompSt} (h : Inv s)
    {comp : List (List Char)} {bg fg : Option (List Char)}
    (hf : compressFinish s = some (comp, bg, fg)) :
    (∀ e ∈ comp, WfTok e) ∧ stripAnsi comp.flatten = vis s ∧
      crs s ≤ countR comp.flatten := by
  obtain ⟨hInv1, hvis1, hcrs1, hbuf1, hbg1, hfg1⟩ := flushSt_spec h
  obtain ⟨hcomp1, hbufI1, hbgI1, hfgI1⟩ := hInv1
  have hv : vis (flushSt s) = stripAnsi (flushSt s).comp.flatten := by
    show stripAnsi (flushSt s).comp.flatten ++ (flushSt s).buf = _
    rw [hbuf1, List.append_nil]
  have hcr : crs (flushSt s) = countR (flushSt s).comp.flatten := rfl
  simp only [compressFinish] at hf
  split at hf
  · split at hf
    · exact absurd hf (by simp)
    next lastE hlast =>
      split at hf
      · simp only [Option.some.injEq, Prod.mk.injEq] at hf
        obtain ⟨hco, hbgE, hfgE⟩ := hf
        subst hco
        refine ⟨hcomp1, ?_, ?_⟩
        · rw [← hv]
          exact hvis1
        · rw [← hcr, hcrs1]
      · simp only [Option.some.injEq, Prod.mk.injEq] at hf
        obtain ⟨hco, hbgE, hfgE⟩ := hf
        subst hco
        refine ⟨mem_append_entry hcomp1 wf_resetTok, ?_, ?_⟩
        · rw [flatten_append_single, stripAnsi_append_wf (wf_flatten hcomp1),
            show stripAnsi resetTok = [] from @stripAnsi_mkTok ['0'] (by decide),
            List.append_nil, ← hv]
          exact hvis1
        · rw [flatten_append_single, countR_append_wf (wf_flatten hcomp1)]
          have hle : crs s ≤ countR (flushSt s).comp.flatten := by
            rw [← hcr, hcrs1]
          omega
  · simp only [Option.some.injEq, Prod.mk.injEq] at hf
    obtain ⟨hco, hbgE, hfgE⟩ := hf
    subst hco
    refine ⟨hcomp1, ?_, ?_⟩
    · rw [← hv]
      exact hvis1
    · rw [← hcr, hcrs1]

/-- Whenever `compressFinish` reports a live color, its output ends with a
reset token. -/
theorem compressFinish_suffix {s : CompSt} {comp : List (List Char)}
    {bg fg : Option (List Char)} (hf : compressFinish s = some (comp, bg, fg))
    (hsome : bg.isSome || fg.isSome) : resetTok.isSuffixOf comp.flatten := by
  simp only [compressFinish] at hf
  split at hf
  next hcnd =>
    split at hf
    · exact absurd hf (by simp)
    next lastE hlast =>
      split at hf
      next hsuf =>
        simp only [Option.some.injEq, Prod.mk.injEq] at hf
        obtain ⟨hco, hbgE, hfgE⟩ := hf
        subst hco
        obtain ⟨p, hp⟩ := flatten_getLast_suffix hlast
        obtain ⟨q, hq⟩ := List.isSuffixOf_iff_suffix.mp hsuf
        rw [List.isSuffixOf_iff_suffix]
        exact ⟨p ++ q, by rw [hp, ← hq, List.append_assoc]⟩
      next hsuf =>
        simp only [Option.some.injEq, Prod.mk.injEq] at hf
        obtain ⟨hco, hbgE, hfgE⟩ := hf
        subst hco
        rw [List.isSuffixOf_iff_suffix, flatten_append_single]
        exact ⟨(flushSt s).comp.flatten, rfl⟩
  next hcnd =>
    simp only [Option.some.injEq, Prod.mk.injEq] at hf
    obtain ⟨hco, hbgE, hfgE⟩ := hf
    subst hbgE
    subst hfgE
    exact absurd hsome (by simpa using hcnd)

theorem splitNl_cons (c : Char) (r : List Char) :
    splitNl (c :: r) = if c = '\n' then [] :: splitNl r
      else match splitNl r with
        | h :: t => (c :: h) :: t
        | [] => [[c]] := rfl

theorem splitNl_ne_nil : ∀ l : List Char, ∃ h t, splitNl l = h :: t := by
  intro l
  cases l with
  | nil => exact ⟨[], [], rfl⟩
  | cons c r =>
    by_cases hc : c = '\n'
    · rw [splitNl_cons, if_pos hc]
      exact ⟨[], splitNl r, rfl⟩
    · rw [splitNl_cons, if_neg hc]
      rcases hsp : splitNl r with - | ⟨h1, t1⟩
      · exact ⟨[c], [], rfl⟩
      · exact ⟨c :: h1, t1, rfl⟩

theorem splitNl_cons_ne {c : Char} (hc : c ≠ '\n') (r : List Char) :
    ∀ {h : List Char} {t : List (List Char)}, splitNl r = h :: t →
      splitNl (c :: r) = (c :: h) :: t := by
  intro h t hsp
  rw [splitNl_cons, if_neg hc, hsp]

theorem joinNl_splitNl : ∀ l : List Char, joinNl (splitNl l) = l := by
  intro l
  induction l with
  | nil => rfl
  | cons c r ih =>
    rw [splitNl_cons]
    by_cases hc : c = '\n'
    · rw [if_pos hc]
      obtain ⟨h1, t1, hsp⟩ := splitNl_ne_nil r
      rw [hsp]
      rw [hsp] at ih
      show [] ++ '\n' :: joinNl (h1 :: t1) = c :: r
      rw [List.nil_append, ih, hc]
    · rw [if_neg hc]
      obtain ⟨h1, t1, hsp⟩ := splitNl_ne_nil r
      rw [hsp]
      rw [hsp] at ih
      show joinNl ((c :: h1) :: t1) = c :: r
      cases t1 with
      | nil =>
        show c :: h1 = c :: r
        rw [show h1 = r from ih]
      | cons a t2 =>
        show (c :: h1) ++ '\n' :: joinNl (a :: t2) = c :: r
        rw [List.cons_append]
        have ih2 : h1 ++ '\n' :: joinNl (a :: t2) = r := ih
        rw [ih2]

theorem splitNl_prepend : ∀ (a : List Char), (∀ c ∈ a, c ≠ '\n') →
    ∀ {r h : List Char} {t : List (List Char)}, splitNl r = h :: t →
      splitNl (a ++ r) = (a ++ h) :: t := by
  intro a
  induction a with
  | nil =>
    intro _ r h t hsp
    simpa using hsp
  | cons c a2 ih =>
    intro ha r h t hsp
    rw [List.cons_append]
    have h2 := ih (fun d hd => ha d (by simp [hd])) hsp
    rw [splitNl_cons_ne (ha c (by simp)) _ h2, List.cons_append]

/-- Splitting a well-formed token list on newlines yields well-formed lines
(color tokens never contain a newline). -/
theorem splitNl_wf {l : List Char} (hwf : WfTok l) : ∀ m ∈ splitNl l, WfTok m := by
  induction hwf with
  | nil =>
    intro m hm
    simp only [splitNl] at hm
    rw [List.mem_singleton.mp hm]
    exact WfTok.nil
  | @lit c r hc hwr ih =>
    intro m hm
    by_cases hnl : c = '\n'
    · rw [splitNl_cons, if_pos hnl] at hm
      rcases List.mem_cons.mp hm with h1 | h1
      · rw [h1]
        exact WfTok.nil
      · exact ih m h1
    · obtain ⟨h1, t1, hsp⟩ := splitNl_ne_nil r
      rw [splitNl_cons_ne hnl r hsp] at hm
      rcases List.mem_cons.mp hm with h2 | h2
      · rw [h2]
        exact WfTok.lit hc (ih h1 (by rw [hsp]; exact List.mem_cons_self h1 t1))
      · exact ih m (by rw [hsp]; exact List.mem_cons_of_mem h1 h2)
  | @tok ds r hds hwr ih =>
    intro m hm
    obtain ⟨h1, t1, hsp⟩ := splitNl_ne_nil r
    have hnl : ∀ d ∈ mkTok ds, d ≠ '\n' := by
      intro d hd
      rw [mkTok] at hd
      simp only [List.cons_append, List.mem_cons, List.mem_append,
        List.mem_singleton] at hd
      rcases hd with h | h | h | h | h
      · subst h; decide
      · subst h; decide
      · exact param_ne_nl (hds d h)
      · subst h; decide
      · exact absurd h (List.not_mem_nil d)
    have hstep := splitNl_prepend (mkTok ds) hnl hsp
    rw [mkTok_append] at hstep
    rw [hstep] at hm
    rcases List.mem_cons.mp hm with h2 | h2
    · rw [h2]
      exact wf_mkTok_append hds (ih h1 (by rw [hsp]; exact List.mem_cons_self h1 t1))
    · exact ih m (by rw [hsp]; exact List.mem_cons_of_mem h1 h2)

/-- Characters of a split line come from the original text. -/
theorem mem_of_mem_splitNl : ∀ {l m : List Char}, m ∈ splitNl l → ∀ {c}, c ∈ m → c ∈ l := by
  intro l
  induction l with
  | nil =>
    intro m hm c hc
    simp only [splitNl] at hm
    rw [List.mem_singleton.mp hm] at hc
    exact absurd hc (List.not_mem_nil c)
  | cons a r ih =>
    intro m hm c hc
    by_cases hnl : a = '\n'
    · rw [splitNl_cons, if_pos hnl] at hm
      rcases List.mem_cons.mp hm with h1 | h1
      · rw [h1] at hc
        exact absurd hc (List.not_mem_nil c)
      · exact List.mem_cons_of_mem a (ih h1 hc)
    · obtain ⟨h1, t1, hsp⟩ := splitNl_ne_nil r
      rw [splitNl_cons_ne hnl r hsp] at hm
      rcases List.mem_cons.mp hm with h2 | h2
      · rw [h2] at hc
        rcases List.mem_cons.mp hc with h3 | h3
        · rw [h3]
          exact List.mem_cons_self a r
        · exact List.mem_cons_of_mem a
            (ih (by rw [hsp]; exact List.mem_cons_self h1 t1) h3)
      · exact List.mem_cons_of_mem a
          (ih (by rw [hsp]; exact List.mem_cons_of_mem h1 h2) hc)

/-- An ESC-bracket pair in the text implies a bracket in the text. -/
theorem hasEscBr_br : ∀ {l : List Char}, hasEscBr l = true → '[' ∈ l := by
  intro l
  induction l with
  | nil =>
    intro h
    exact absurd h (by decide)
  | cons c r ih =>
    intro h
    cases r with
    | nil => exact absurd h (by simp [hasEscBr])
    | cons c2 r2 =>
      rw [hasEscBr, Bool.or_eq_true] at h
      rcases h with h1 | h1
      · have hb : c2 = '[' := by
          rw [Bool.and_eq_true] at h1
          exact of_decide_eq_true h1.2
        rw [hb]
        simp
      · exact List.mem_cons_of_mem c (ih h1)

/-- `strip_ansi` distributes over newline joins of well-formed lines. -/
theorem stripAnsi_joinNl : ∀ {ls : List (List Char)}, (∀ m ∈ ls, WfTok m) →
    stripAnsi (joinNl ls) = joinNl (ls.map stripAnsi) := by
  intro ls
  induction ls with
  | nil => intro _; rfl
  | cons l rest ih =>
    intro h
    cases rest with
    | nil => rfl
    | cons b t =>
      show stripAnsi (l ++ '\n' :: joinNl (b :: t)) =
        stripAnsi l ++ '\n' :: joinNl ((b :: t).map stripAnsi)
      rw [stripAnsi_append_wf (h l (by simp)), stripAnsi_lit '\n' (by decide),
        ih (fun m hm => h m (by simp [hm]))]

/-- Reset counting distributes over newline joins of well-formed lines. -/
theorem countR_joinNl : ∀ {ls : List (List Char)}, (∀ m ∈ ls, WfTok m) →
    countR (joinNl ls) = (ls.map countR).sum := by
  intro ls
  induction ls with
  | nil => intro _; rfl
  | cons l rest ih =>
    intro h
    cases rest with
    | nil =>
      show countR l = ([countR l]).sum
      simp
    | cons b t =>
      show countR (l ++ '\n' :: joinNl (b :: t)) = countR l + ((b :: t).map countR).sum
      rw [countR_append_wf (h l (by simp)), countR_cons_ne (by decide : '\n' ≠ escC),
        ih (fun m hm => h m (by simp [hm]))]

theorem compressLineFull_true_eq (line : List Char)
    (hbr : ¬ (¬ hasBr line = true ∧ ¬ hasEscBr line = true)) :
    compressLineFull true line =
      match compressFinish (compressGoA ⟨none, none, [], []⟩ line) with
      | none => none
      | some (comp, bg, fg) => some (comp.flatten, bg, fg) := by
  rw [compressLineFull, if_neg hbr]
  rfl

/-- Per-line correctness of `compress_frame` in the real-escape mode: on a
well-formed line, the output is well formed, strips to the same visible text,
and keeps every reset. -/
theorem compressLineFull_true_spec {line : List Char} (hwf : WfTok line)
    {o : List Char} {bg fg : Option (List Char)}
    (h : compressLineFull true line = some (o, bg, fg)) :
    WfTok o ∧ stripAnsi o = stripAnsi line ∧ countR line ≤ countR o := by
  by_cases h1 : ¬ hasBr line = true ∧ ¬ hasEscBr line = true
  · rw [compressLineFull, if_pos h1] at h
    simp only [Option.some.injEq, Prod.mk.injEq] at h
    obtain ⟨ho, hbgE, hfgE⟩ := h
    subst ho
    exact ⟨hwf, rfl, le_rfl⟩
  · rw [compressLineFull_true_eq line h1] at h
    have hinit : Inv ⟨none, none, [], []⟩ :=
      ⟨fun e he => absurd he (List.not_mem_nil e),
       fun c hc => absurd hc (List.not_mem_nil c), Or.inl rfl, Or.inl rfl⟩
    obtain ⟨hIs, hviss, hcrss⟩ := compressGoA_spec hwf _ hinit
    cases hfin : compressFinish (compressGoA ⟨none, none, [], []⟩ line) with
    | none =>
      rw [hfin] at h
      exact absurd h (by simp)
    | some t =>
      obtain ⟨comp, cbg, cfg⟩ := t
      rw [hfin] at h
      simp only [Option.some.injEq, Prod.mk.injEq] at h
      obtain ⟨ho, hbgE, hfgE⟩ := h
      subst ho
      obtain ⟨hwfc, hstrip, hcnt⟩ := compressFinish_spec hIs hfin
      refine ⟨wf_flatten hwfc, ?_, ?_⟩
      · rw [hstrip, hviss, show vis (⟨none, none, [], []⟩ : CompSt) = [] from rfl,
          List.nil_append]
      · rw [hcrss, show crs (⟨none, none, [], []⟩ : CompSt) = 0 from rfl] at hcnt
        omega

/-- Whenever the real-escape per-line pass ends with a live color, the output
line ends with a reset token. -/
theorem compressLineFull_reset_end {line o : List Char}
    {bg fg : Option (List Char)} (h : compressLineFull true line = some (o, bg, fg))
    (hsome : bg.isSome || fg.isSome) : resetTok.isSuffixOf o := by
  by_cases h1 : ¬ hasBr line = true ∧ ¬ hasEscBr line = true
  · rw [compressLineFull, if_pos h1] at h
    simp only [Option.some.injEq, Prod.mk.injEq] at h
    obtain ⟨ho, hbgE, hfgE⟩ := h
    subst hbgE
    subst hfgE
    exact absurd hsome (by simp)
  · rw [compressLineFull_true_eq line h1] at h
    cases hfin : compressFinish (compressGoA ⟨none, none, [], []⟩ line) with
    | none =>
      rw [hfin] at h
      exact absurd h (by simp)
    | some t =>
      obtain ⟨comp, cbg, cfg⟩ := t
      rw [hfin] at h
      simp only [Option.some.injEq, Prod.mk.injEq] at h
      obtain ⟨ho, hbgE, hfgE⟩ := h
      subst ho
      subst hbgE
      subst hfgE
      exact compressFinish_suffix hfin hsome

theorem compressLine_some {hasEsc : Bool} {line o : List Char}
    (h : compressLine hasEsc line = some o) :
    ∃ bg fg, compressLineFull hasEsc line = some (o, bg, fg) := by
  rw [compressLine] at h
  cases hfull : compressLineFull hasEsc line with
  | none =>
    rw [hfull] at h
    exact absurd h (by simp)
  | some t =>
    obtain ⟨o2, bg, fg⟩ := t
    rw [hfull] at h
    simp only [Option.map_some', Option.some.injEq] at h
    subst h
    exact ⟨bg, fg, rfl⟩

theorem optList_nil {α : Type} : optList ([] : List (Option α)) = some [] := rfl

theorem optList_cons {α : Type} (o : Option α) (r : List (Option α)) :
    optList (o :: r) = match o, optList r with
      | some a, some l => some (a :: l)
      | _, _ => none := rfl

theorem optList_forall₂ {α β : Type} (f : α → Option β) :
    ∀ (l : List α) (out : List β), optList (l.map f) = some out →
      List.Forall₂ (fun a b => f a = some b) l out := by
  intro l
  induction l with
  | nil =>
    intro out h
    simp only [List.map_nil, optList_nil, Option.some.injEq] at h
    subst h
    exact List.Forall₂.nil
  | cons a l2 ih =>
    intro out h
    rw [List.map_cons, optList_cons] at h
    cases hfa : f a with
    | none =>
      rw [hfa] at h
      exact absurd h (by simp)
    | some b =>
      cases hrest : optList (l2.map f) with
      | none =>
        rw [hfa, hrest] at h
        exact absurd h (by simp)
      | some bs =>
        rw [hfa, hrest] at h
        simp only [Option.some.injEq] at h
        subst h
        exact List.Forall₂.cons hfa (ih bs hrest)

/-- Pointwise per-line correctness lifted to the list of lines. -/
theorem forall₂_strip {lines outs : List (List Char)}
    (hall : List.Forall₂ (fun a b => compressLine true a = some b) lines outs)
    (hwf : ∀ m ∈ lines, WfTok m) :
    (∀ m ∈ outs, WfTok m) ∧ outs.map stripAnsi = lines.map stripAnsi ∧
      (lines.map countR).sum ≤ (outs.map countR).sum := by
  induction hall with
  | nil => exact ⟨fun m hm => absurd hm (List.not_mem_nil m), rfl, le_rfl⟩
  | @cons a b l1 l2 hab htail ih =>
    obtain ⟨h1, h2, h3⟩ := ih (fun m hm => hwf m (by simp [hm]))
    obtain ⟨bg, fg, hfull⟩ := compressLine_some hab
    obtain ⟨hwo, hso, hco⟩ := compressLineFull_true_spec (hwf a (by simp)) hfull
    refine ⟨?_, ?_, ?_⟩
    · intro m hm
      rcases List.mem_cons.mp hm with h4 | h4
      · rw [h4]
        exact hwo
      · exact h1 m h4
    · rw [List.map_cons, List.map_cons, h2, hso]
    · rw [List.map_cons, List.map_cons, List.sum_cons, List.sum_cons]
      omega

theorem compress_frame_eq (text : List Char) (hnil : text ≠ []) :
    compress_frame text =
      match optList ((splitNl text).map (compressLine (hasEscBr text))) with
      | none => none
      | some outs => some (joinNl outs) := by
  rw [compress_frame, if_neg hnil]

theorem optList_map_some {α : Type} : ∀ l : List α, optList (l.map some) = some l := by
  intro l
  induction l with
  | nil => rfl
  | cons a r ih => rw [List.map_cons, optList_cons, ih]

theorem testBit_orStep (c : Prop) [inst : Decidable c] (x e k : Nat) :
    tbit (if c then x ||| 2 ^ e else x) k =
      (tbit x k || (decide c && decide (e = k))) := by
  by_cases h : c
  · simp [h, tbit, Nat.testBit_or, Nat.testBit_two_pow]
  · simp [h, tbit]

/-- `testBit_orStep` specialized to the eight braille dot masks. -/
theorem testBit_orM (c : Prop) [inst : Decidable c] (x k : Nat) :
    (tbit (if c then x ||| 1 else x) k = (tbit x k || (decide c && decide (0 = k)))) ∧
    (tbit (if c then x ||| 2 else x) k = (tbit x k || (decide c && decide (1 = k)))) ∧
    (tbit (if c then x ||| 4 else x) k = (tbit x k || (decide c && decide (2 = k)))) ∧
    (tbit (if c then x ||| 8 else x) k = (tbit x k || (decide c && decide (3 = k)))) ∧
    (tbit (if c then x ||| 16 else x) k = (tbit x k || (decide c && decide (4 = k)))) ∧
    (tbit (if c then x ||| 32 else x) k = (tbit x k || (decide c && decide (5 = k)))) ∧
    (tbit (if c then x ||| 64 else x) k = (tbit x k || (decide c && decide (6 = k)))) ∧
    (tbit (if c then x ||| 128 else x) k =
      (tbit x k || (decide c && decide (7 = k)))) := by
  refine ⟨?_, ?_, ?_, ?_, ?_, ?_, ?_, ?_⟩ <;>
    · have h0 := testBit_orStep c x 0 k
      have h1 := testBit_orStep c x 1 k
      have h2 := testBit_orStep c x 2 k
      have h3 := testBit_orStep c x 3 k
      have h4 := testBit_orStep c x 4 k
      have h5 := testBit_orStep c x 5 k
      have h6 := testBit_orStep c x 6 k
      have h7 := testBit_orStep c x 7 k
      norm_num at h0 h1 h2 h3 h4 h5 h6 h7
      first
        | exact h0 | exact h1 | exact h2 | exact h3
        | exact h4 | exact h5 | exact h6 | exact h7

/-! ## Claims -/

/-- C1: the diff-engine property fails in `char` mode: for the same-shaped
frame pair `prev = "X"`, `curr = ESC[38;2;0;0;0m ++ "Y"` (equal line counts
and visible lengths), applying the emitted `char`-mode byte stream to a
terminal holding the previous frame leaves the visible grid at `X`
(`curr_line[col_idx]` fetches the raw ESC character at a stripped column
index), not at the stripped current frame `Y` — while `line` mode does
reproduce the current frame on the same input. -/
theorem c1_char_diff_misrenders :
    sameShaped "X".data "\x1b[38;2;0;0;0mY".data = true ∧
    (applyOut ((renderFrameDiff "char".data "X".data "\x1b[38;2;0;0;0mY".data).length + 1)
          (termOfFrame "X".data)
          (renderFrameDiff "char".data "X".data "\x1b[38;2;0;0;0mY".data)).grid ≠
        visibleGrid "\x1b[38;2;0;0;0mY".data ∧
    (applyOut ((renderFrameDiff "line".data "X".data "\x1b[38;2;0;0;0mY".data).length + 1)
          (termOfFrame "X".data)
          (renderFrameDiff "line".data "X".data "\x1b[38;2;0;0;0mY".data)).grid =
        visibleGrid "\x1b[38;2;0;0;0mY".data := by
  refine ⟨by decide, by decide, by decide⟩

/-- C4: `calculate_otsu_threshold` is a deterministic function of the 256-bin
histogram (equal histograms give equal thresholds); whenever some candidate
split in `[0,255]` has both classes non-empty, the returned threshold is the
first candidate maximizing the between-class variance
`w_b * w_f * (mean_b - mean_f) ** 2` (ties keep the first maximum
encountered, and every earlier candidate is strictly worse); and every
degenerate image whose pixels all share one value yields 128. -/
theorem c4_otsu_threshold (pixels pixels2 : List (Fin 256)) (v : Fin 256) (npix : Nat) :
    (histOf pixels = histOf pixels2 →
      calculateOtsuThreshold pixels = calculateOtsuThreshold pixels2) ∧
    (0 < npix → calculateOtsuThreshold (List.replicate npix v) = 128) ∧
    (∀ t, t ≤ 255 → otsuValid (histOf pixels) t →
      otsuValid (histOf pixels) (calculateOtsuThreshold pixels) ∧
      calculateOtsuThreshold pixels ≤ 255 ∧
      (∀ i, i ≤ 255 →
        otsuVariance (histOf pixels) i ≤
          otsuVariance (histOf pixels) (calculateOtsuThreshold pixels)) ∧
      (∀ i, i < calculateOtsuThreshold pixels →
        otsuVariance (histOf pixels) i <
          otsuVariance (histOf pixels) (calculateOtsuThreshold pixels))) := by
  refine ⟨?_, ?_, ?_⟩
  · intro h
    unfold calculateOtsuThreshold
    rw [h]
  · intro hn
    have hnov : ∀ i, ¬ otsuValid (histOf (List.replicate npix v)) i := by
      intro i
      rw [otsuValid, otsuWb_eq_histPre]
      rintro ⟨h1, h2⟩
      have htot : otsuTotal (histOf (List.replicate npix v)) = npix := by
        show histPre _ 256 = npix
        rw [histPre_replicate]
        exact if_pos v.isLt
      rw [histPre_replicate] at h1
      rw [histPre_replicate, htot] at h2
      by_cases hvi : (v : Nat) < i + 1
      · rw [if_pos hvi] at h2
        omega
      · rw [if_neg hvi] at h1
        omega
    obtain ⟨-, -, -, hmax⟩ := otsuIter_inv (histOf (List.replicate npix v)) 256 (le_refl _)
    rcases hmax with ⟨-, hthr, -⟩ | ⟨hval, -⟩
    · exact hthr
    · exact absurd hval (hnov _)
  · intro t ht hv
    obtain ⟨-, -, -, hmax⟩ := otsuIter_inv (histOf pixels) 256 (le_refl _)
    rcases hmax with ⟨-, -, hnone⟩ | ⟨h1, h2, h3, h4, h5, h6⟩
    · exact absurd hv (hnone t (by omega))
    · have hthr_eq : calculateOtsuThreshold pixels =
          (otsuIter (histOf pixels) 256).threshold := rfl
      refine ⟨?_, ?_, ?_, ?_⟩
      · rw [hthr_eq]
        exact h1
      · rw [hthr_eq]
        omega
      · intro i hi
        rw [hthr_eq, ← h3]
        by_cases hvi : otsuValid (histOf pixels) i
        · exact h5 i (by omega) hvi
        · rw [otsuVariance_invalid _ _ hvi]
          linarith
      · intro i hi
        rw [hthr_eq] at hi
        rw [hthr_eq, ← h3]
        by_cases hvi : otsuValid (histOf pixels) i
        · exact h6 i hi hvi
        · rw [otsuVariance_invalid _ _ hvi]
          linarith

/-- Witness for C4: a two-pixel degenerate image yields 128, and for the
two-valued image `[0, 255]` the split at 0 is valid and the returned
threshold is itself a valid split in range. -/
theorem c4_otsu_threshold_witness :
    (0 : Nat) < 2 ∧ calculateOtsuThreshold (List.replicate 2 (7 : Fin 256)) = 128 ∧
    otsuValid (histOf [(0 : Fin 256), 255]) 0 ∧
    otsuValid (histOf [(0 : Fin 256), 255])
      (calculateOtsuThreshold [(0 : Fin 256), 255]) ∧
    calculateOtsuThreshold [(0 : Fin 256), 255] ≤ 255 := by
  refine ⟨by decide, ?_, by decide, ?_, ?_⟩
  · exact (c4_otsu_threshold [] [] 7 2).2.1 (by decide)
  · exact ((c4_otsu_threshold [(0 : Fin 256), 255] [] 0 0).2.2 0 (by decide)
      (by decide)).1
  · exact ((c4_otsu_threshold [(0 : Fin 256), 255] [] 0 0).2.2 0 (by decide)
      (by decide)).2.1

/-- C7: for every mean channel brightness in `[0, 255]`, the chosen ramp
index is `floor(avg_channel / (255 / (ramp_length - 1)))`, and for every
built-in ramp this index is in bounds, including at brightness exactly
255. -/
theorem c7_text_glyph_index (brightness : ℚ) (h0 : 0 ≤ brightness)
    (h255 : brightness ≤ 255) :
    ∀ p ∈ textStyles,
      textGlyphIndex brightness p.2.length =
        ⌊brightness / (255 / ((p.2.length - 1 : Nat) : ℚ))⌋ ∧
      (textGlyphIndex brightness p.2.length).toNat < p.2.length := by
  have key : ∀ n : Nat, 2 ≤ n →
      textGlyphIndex brightness n = ⌊brightness / (255 / ((n - 1 : Nat) : ℚ))⌋ ∧
      (textGlyphIndex brightness n).toNat < n := by
    intro n h2
    constructor
    · have hq0 : 0 ≤ brightness / intensityRange n := by
        rw [intensityRange]
        positivity
      exact truncQ_eq_floor _ hq0
    · exact textGlyphIndex_lt brightness n h2 h0 h255
  intro p hp
  fin_cases hp <;> exact key _ (by decide)

/-- Witness for C7 at brightness exactly 255 on the `legacy` ramp. -/
theorem c7_text_glyph_index_witness :
    (0 : ℚ) ≤ 255 ∧ (255 : ℚ) ≤ 255 ∧
    (textGlyphIndex 255 (".:-=+*#%@" : String).length).toNat <
      (".:-=+*#%@" : String).length :=
  ⟨by decide, by decide,
    (c7_text_glyph_index 255 (by decide) (by decide)
      (("legacy", ".:-=+*#%@") : String × String) (by decide)).2⟩

/-- C5: in `BrailleRenderer`, for a 2x4-pixel cell and each of its 8
sub-pixels, the corresponding dot bit of the cell code is set if and only if
the sub-pixel's grayscale value exceeds `threshold * 0.8` (`threshold * 1.2`
when `transparent` is set); consequently, with color disabled, the uniformly
bright (all-255) 2x4 block renders as the full-dot codepoint
`U+2800 + 0xFF` and the uniformly dark (all-0) block renders as a single
space. -/
theorem c5_braille_dot_bits (g : List (Fin 256)) (cp : List (Nat × Nat × Nat))
    (threshold : Nat) (transparent : Bool) (dx : Fin 2) (dy : Fin 4)
    (hlen : g.length = 8) :
    ((brailleCell g cp 2 4 threshold transparent 0 0).1.testBit
        (dotExp ((dx : Nat), (dy : Nat))) = true ↔
      braillePixelThreshold threshold transparent <
        ((g.getD ((dy : Nat) * 2 + (dx : Nat)) 0 : Fin 256) : ℚ)) ∧
    renderBraille [255, 255, 255, 255, 255, 255, 255, 255]
        [(255, 255, 255), (255, 255, 255), (255, 255, 255), (255, 255, 255),
         (255, 255, 255), (255, 255, 255), (255, 255, 255), (255, 255, 255)] 2 4 false
        false none =
      some [Char.ofNat 0x28FF] ∧
    renderBraille [0, 0, 0, 0, 0, 0, 0, 0]
        [(0, 0, 0), (0, 0, 0), (0, 0, 0), (0, 0, 0), (0, 0, 0), (0, 0, 0), (0, 0, 0),
         (0, 0, 0)] 2 4 false false none =
      some [' '] := by
  refine ⟨?_, ?_, ?_⟩
  · simp only [show ∀ x k : Nat, Nat.testBit x k = tbit x k from fun _ _ => rfl]
    fin_cases dx <;> fin_cases dy <;>
    · simp only [brailleCell, (by decide : List.range 4 = [0, 1, 2, 3]),
        (by decide : List.range 2 = [0, 1]), List.foldl_cons, List.foldl_nil]
      norm_num [dotMapping, dotExp, hlen]
      try simp only [apply_ite (Prod.fst : Nat × List (Nat × Nat × Nat) → Nat)]
      simp only [(testBit_orM _ _ _).1, (testBit_orM _ _ _).2.1,
        (testBit_orM _ _ _).2.2.1, (testBit_orM _ _ _).2.2.2.1,
        (testBit_orM _ _ _).2.2.2.2.1, (testBit_orM _ _ _).2.2.2.2.2.1,
        (testBit_orM _ _ _).2.2.2.2.2.2.1, (testBit_orM _ _ _).2.2.2.2.2.2.2]
      simp [(by decide : tbit 10240 0 = false),
        (by decide : tbit 10240 1 = false),
        (by decide : tbit 10240 2 = false),
        (by decide : tbit 10240 3 = false),
        (by decide : tbit 10240 4 = false),
        (by decide : tbit 10240 5 = false),
        (by decide : tbit 10240 6 = false),
        (by decide : tbit 10240 7 = false)]
  · have hthr : calculateOtsuThreshold [255, 255, 255, 255, 255, 255, 255, 255] = 128 := by
      decide
    have hc : braillePixelThreshold 128 false < (((255 : Fin 256) : Nat) : ℚ) := by
      have hval : ((255 : Fin 256) : Nat) = 255 := rfl
      rw [hval]
      norm_num [braillePixelThreshold]
    have hcell : brailleCell [255, 255, 255, 255, 255, 255, 255, 255]
        [(255, 255, 255), (255, 255, 255), (255, 255, 255), (255, 255, 255),
         (255, 255, 255), (255, 255, 255), (255, 255, 255), (255, 255, 255)] 2 4 128
        false 0 0 =
        (0x28FF, [((255 : Nat), (255 : Nat), (255 : Nat)), (255, 255, 255),
          (255, 255, 255), (255, 255, 255), (255, 255, 255), (255, 255, 255),
          (255, 255, 255), (255, 255, 255)]) := by
      simp only [brailleCell, (by decide : List.range 4 = [0, 1, 2, 3]),
        (by decide : List.range 2 = [0, 1]), List.foldl_cons, List.foldl_nil]
      norm_num [hc]
      decide
    have hconv : convertToBraille [255, 255, 255, 255, 255, 255, 255, 255]
        [(255, 255, 255), (255, 255, 255), (255, 255, 255), (255, 255, 255),
         (255, 255, 255), (255, 255, 255), (255, 255, 255), (255, 255, 255)] 2 4 128
        false false none =
        [Char.ofNat 0x28FF] := by
      simp only [convertToBraille, (by decide : max 1 (2 / 2) = 1),
        (by decide : max 1 (4 / 4) = 1), (by decide : List.range 1 = [0]),
        List.map_cons, List.map_nil, brailleCellRender, hcell, applyFrameColor,
        joinNl]
      decide
    calc renderBraille [255, 255, 255, 255, 255, 255, 255, 255]
          [(255, 255, 255), (255, 255, 255), (255, 255, 255), (255, 255, 255),
           (255, 255, 255), (255, 255, 255), (255, 255, 255), (255, 255, 255)] 2 4
          false false none =
        compress_frame (convertToBraille [255, 255, 255, 255, 255, 255, 255, 255]
          [(255, 255, 255), (255, 255, 255), (255, 255, 255), (255, 255, 255),
           (255, 255, 255), (255, 255, 255), (255, 255, 255), (255, 255, 255)] 2 4
          (calculateOtsuThreshold [255, 255, 255, 255, 255, 255, 255, 255]) false false
          none) := rfl
      _ = compress_frame [Char.ofNat 0x28FF] := by rw [hthr, hconv]
      _ = some [Char.ofNat 0x28FF] := by decide
  · have hthr : calculateOtsuThreshold [0, 0, 0, 0, 0, 0, 0, 0] = 128 := by decide
    have hc : ¬ braillePixelThreshold 128 false < (0 : ℚ) := by
      norm_num [braillePixelThreshold]
    have hcell : brailleCell [0, 0, 0, 0, 0, 0, 0, 0]
        [(0, 0, 0), (0, 0, 0), (0, 0, 0), (0, 0, 0), (0, 0, 0), (0, 0, 0), (0, 0, 0),
         (0, 0, 0)] 2 4 128 false 0 0 =
        (0x2800, ([] : List (Nat × Nat × Nat))) := by
      simp only [brailleCell, (by decide : List.range 4 = [0, 1, 2, 3]),
        (by decide : List.range 2 = [0, 1]), List.foldl_cons, List.foldl_nil]
      norm_num [hc]
    have hconv : convertToBraille [0, 0, 0, 0, 0, 0, 0, 0]
        [(0, 0, 0), (0, 0, 0), (0, 0, 0), (0, 0, 0), (0, 0, 0), (0, 0, 0), (0, 0, 0),
         (0, 0, 0)] 2 4 128 false false none =
        [' '] := by
      simp only [convertToBraille, (by decide : max 1 (2 / 2) = 1),
        (by decide : max 1 (4 / 4) = 1), (by decide : List.range 1 = [0]),
        List.map_cons, List.map_nil, brailleCellRender, hcell, applyFrameColor,
        joinNl]
      decide
    calc renderBraille [0, 0, 0, 0, 0, 0, 0, 0]
          [(0, 0, 0), (0, 0, 0), (0, 0, 0), (0, 0, 0), (0, 0, 0), (0, 0, 0), (0, 0, 0),
           (0, 0, 0)] 2 4 false false none =
        compress_frame (convertToBraille [0, 0, 0, 0, 0, 0, 0, 0]
          [(0, 0, 0), (0, 0, 0), (0, 0, 0), (0, 0, 0), (0, 0, 0), (0, 0, 0), (0, 0, 0),
           (0, 0, 0)] 2 4 (calculateOtsuThreshold [0, 0, 0, 0, 0, 0, 0, 0]) false false
          none) := rfl
      _ = compress_frame [' '] := by rw [hthr, hconv]
      _ = some [' '] := by decide

/-- Witness for C5: on an 8-pixel gradient cell with threshold 100 and
`transparent` off, the dot bit of sub-pixel `(1, 3)` (value 255) is set and
the dot bit of sub-pixel `(0, 0)` (value 0) is clear. -/
theorem c5_braille_dot_bits_witness :
    ([(0 : Fin 256), 10, 20, 30, 40, 50, 60, 255].length = 8) ∧
    (brailleCell [(0 : Fin 256), 10, 20, 30, 40, 50, 60, 255] [] 2 4 100 false 0
        0).1.testBit (dotExp (1, 3)) = true ∧
    ¬ (brailleCell [(0 : Fin 256), 10, 20, 30, 40, 50, 60, 255] [] 2 4 100 false 0
        0).1.testBit (dotExp (0, 0)) = true := by
  have h1 : (brailleCell [(0 : Fin 256), 10, 20, 30, 40, 50, 60, 255] [] 2 4 100
        false 0 0).1.testBit (dotExp (1, 3)) = true ↔
      braillePixelThreshold 100 false < (((255 : Fin 256) : Nat) : ℚ) :=
    (c5_braille_dot_bits [(0 : Fin 256), 10, 20, 30, 40, 50, 60, 255] []
      100 false 1 3 (by decide)).1
  have h2 : (brailleCell [(0 : Fin 256), 10, 20, 30, 40, 50, 60, 255] [] 2 4 100
        false 0 0).1.testBit (dotExp (0, 0)) = true ↔
      braillePixelThreshold 100 false < (((0 : Fin 256) : Nat) : ℚ) :=
    (c5_braille_dot_bits [(0 : Fin 256), 10, 20, 30, 40, 50, 60, 255] []
      100 false 0 0 (by decide)).1
  refine ⟨by decide, ?_, ?_⟩
  · apply h1.mpr
    rw [show ((255 : Fin 256) : Nat) = 255 from rfl]
    norm_num [braillePixelThreshold]
  · intro hbit
    have hlt := h2.mp hbit
    rw [show ((0 : Fin 256) : Nat) = 0 from rfl] at hlt
    norm_num [braillePixelThreshold] at hlt

/-- C6: `HalfBlockRenderer.render` with `transparent` disabled, on the
1-column, 2-row image with upper pixel `(255,0,0)` and lower pixel
`(0,255,0)`, at target width 1 and height 1, emits exactly the
background-red escape, the foreground-green escape, the lower-half-block
glyph and a trailing reset, and nothing else. -/
theorem c6_halfblock_exact_bytes :
    renderHalfBlock [(255, 0, 0), (0, 255, 0)] 1 1 false 0 =
      some "\x1b[48;2;255;0;0m\x1b[38;2;0;255;0m▄\x1b[0m".data := by decide

/-- C8: for every tick sequence (hence independently of wall-clock readings),
the playback loop started from the initial state maintains
`next_frame_time = start_time + n * frame_duration` where `n` is the number
of processed (displayed or skipped) frames, and the processed frame indices
are exactly `0, 1, 2, …` in strictly increasing order with no reordering. -/
theorem c8_scheduler_invariant (startTime frameDuration skipThreshold : ℚ)
    (frameSkip : Bool) (totalFrames : Nat) (ticks : List ℚ) :
    (playRun startTime frameDuration skipThreshold frameSkip totalFrames
          ⟨0, startTime, 0⟩ ticks).1.nextFrameTime =
        startTime +
          ((playRun startTime frameDuration skipThreshold frameSkip totalFrames
              ⟨0, startTime, 0⟩ ticks).1.currentFrame : ℚ) * frameDuration ∧
    (playRun startTime frameDuration skipThreshold frameSkip totalFrames
          ⟨0, startTime, 0⟩ ticks).1.currentFrame =
        (playRun startTime frameDuration skipThreshold frameSkip totalFrames
          ⟨0, startTime, 0⟩ ticks).2.length ∧
    (playRun startTime frameDuration skipThreshold frameSkip totalFrames
          ⟨0, startTime, 0⟩ ticks).2.map SchedEvent.idx =
        List.range
          (playRun startTime frameDuration skipThreshold frameSkip totalFrames
            ⟨0, startTime, 0⟩ ticks).2.length := by
  have h0 : (SchedState.mk 0 startTime 0).nextFrameTime =
      startTime + ((SchedState.mk 0 startTime 0).currentFrame : ℚ) * frameDuration := by
    simp
  rcases playRun_spec startTime frameDuration skipThreshold frameSkip totalFrames ticks
      ⟨0, startTime, 0⟩ h0 with ⟨h1, h2, h3⟩
  refine ⟨h1, by simpa using h2, ?_⟩
  rw [List.range_eq_range']
  simpa using h3

/-- C9: `create_renderer` fails with `InvalidRenderStyleError` exactly when
the style name is unregistered; when it is registered it returns an instance
of the registered renderer class with the given configuration; and
registering then unregistering a name always leaves `create_renderer`
failing on that name. -/
theorem c9_registry_create {α : Type} (reg : Registry α) (style name : String)
    (rendererClass : α) (color : Bool) (frameColor : Option (Nat × Nat × Nat))
    (transparent : Bool) :
    (createRenderer reg style color frameColor transparent =
        .error (.invalidRenderStyle style) ↔ reg style = none) ∧
    (∀ c : α, reg style = some c →
      createRenderer reg style color frameColor transparent =
        .ok ⟨c, style, color, frameColor, transparent⟩) ∧
    createRenderer
        (unregisterRenderer (registerRenderer reg (.inl name) rendererClass) (.inl name))
        name color frameColor transparent =
      .error (.invalidRenderStyle name) := by
  refine ⟨?_, ?_, ?_⟩
  · cases h : reg style with
    | none => simp [createRenderer, hasRenderer, h]
    | some c => simp [createRenderer, hasRenderer, h]
  · intro c hc
    simp [createRenderer, hasRenderer, hc]
  · simp [createRenderer, hasRenderer, unregisterRenderer, registerRenderer,
      normalizeNames]

/-- Witness for C9 at a concrete registry: the style `"braille"` maps to
class `1`, creation succeeds with that class, and an unknown style fails. -/
theorem c9_registry_create_witness :
    createRenderer (fun q => if q = "braille" then some 1 else none) "braille" false none
        false = .ok ⟨1, "braille", false, none, false⟩ ∧
    createRenderer (fun q => if q = "braille" then some 1 else none) "missing" false none
        false = .error (.invalidRenderStyle "missing") := by
  constructor
  · exact (c9_registry_create (fun q => if q = "braille" then some 1 else none)
      "braille" "x" 1 false none false).2.1 1 (by simp)
  · exact ((c9_registry_create (fun q => if q = "braille" then some 1 else none)
      "missing" "x" 1 false none false).1).mpr (by simp)

/-- C10: `ColorManager.compress_frame` is not total: on the input consisting
of a single foreground color escape and nothing else, it reads
`compressed[-1]` while `compressed` is still empty and raises `IndexError`
(modelled as `none`) instead of returning a string. -/
theorem c10_compress_frame_not_total :
    compress_frame "\x1b[38;2;1;2;3m".data = none := by decide

/-- Claim C2, counterexample: on a bracket-notation line (no real escape
characters), `compress_frame` appends a bracket-notation reset `[0m`, which
survives escape stripping, so the stripped output differs from the stripped
input.  The spec's visible-content-preservation claim is therefore false for
arbitrary input strings. -/
theorem c2_counterexample :
    compress_frame "[38;2;1;2;3mab".data = some "[38;2;1;2;3mab[0m".data ∧
      stripAnsi "[38;2;1;2;3mab[0m".data ≠ stripAnsi "[38;2;1;2;3mab".data := by
  constructor
  · decide
  · decide

/-- Claim C2, amended: on texts in which every escape character begins a
complete `ESC [ params m` color token, and which either contain a real
`ESC [` pair (so the real-escape path is taken) or contain no bracket at all,
a successful `compress_frame` preserves the escape-stripped visible content
exactly. -/
theorem c2_compress_strip_preserved (text out : List Char) (hwf : WfTok text)
    (hmode : hasEscBr text = true ∨ hasBr text = false)
    (hout : compress_frame text = some out) :
    stripAnsi out = stripAnsi text := by
  by_cases hnil : text = []
  · subst hnil
    rw [compress_frame, if_pos rfl] at hout
    simp only [Option.some.injEq] at hout
    subst hout
    rfl
  · rw [compress_frame_eq text hnil] at hout
    cases hopt : optList ((splitNl text).map (compressLine (hasEscBr text))) with
    | none =>
      rw [hopt] at hout
      exact absurd hout (by simp)
    | some outs =>
      rw [hopt] at hout
      simp only [Option.some.injEq] at hout
      subst hout
      have hlines := splitNl_wf hwf
      rcases hmode with hA | hB
      · rw [hA] at hopt
        have hfa := optList_forall₂ (compressLine true) (splitNl text) outs hopt
        obtain ⟨hwfo, hmap, _⟩ := forall₂_strip hfa hlines
        rw [stripAnsi_joinNl hwfo, hmap, ← stripAnsi_joinNl hlines, joinNl_splitNl]
      · have hid : (splitNl text).map (compressLine (hasEscBr text)) =
            (splitNl text).map some := by
          apply List.map_congr_left
          intro line hline
          have hbr : ¬ hasBr line = true := by
            intro hx
            have hmem : '[' ∈ line := by simpa [hasBr] using hx
            have hmt : '[' ∈ text := mem_of_mem_splitNl hline hmem
            rw [show hasBr text = true from by simpa [hasBr] using hmt] at hB
            exact absurd hB (by simp)
          have hebr : ¬ hasEscBr line = true := by
            intro hx
            have hmem : '[' ∈ line := hasEscBr_br hx
            have hmt : '[' ∈ text := mem_of_mem_splitNl hline hmem
            rw [show hasBr text = true from by simpa [hasBr] using hmt] at hB
            exact absurd hB (by simp)
          rw [compressLine, compressLineFull, if_pos ⟨hbr, hebr⟩]
          rfl
        rw [hid, optList_map_some] at hopt
        simp only [Option.some.injEq] at hopt
        rw [← hopt, joinNl_splitNl]

/-- Claim C2, witness: the amended preservation theorem applied to the
concrete well-formed text `ESC[38;2;1;2;3mA`. -/
theorem c2_compress_strip_preserved_witness :
    hasEscBr "\x1b[38;2;1;2;3mA".data = true ∧
      compress_frame "\x1b[38;2;1;2;3mA".data = some "\x1b[38;2;1;2;3mA\x1b[0m".data ∧
      stripAnsi "\x1b[38;2;1;2;3mA\x1b[0m".data = stripAnsi "\x1b[38;2;1;2;3mA".data := by
  have hwf : WfTok "\x1b[38;2;1;2;3mA".data := by
    have hsh : "\x1b[38;2;1;2;3mA".data =
        escC :: '[' :: "38;2;1;2;3".data ++ 'm' :: ['A'] := by decide
    rw [hsh]
    exact WfTok.tok (by decide) (WfTok.lit (by decide) WfTok.nil)
  refine ⟨by decide, by decide, ?_⟩
  exact c2_compress_strip_preserved _ _ hwf (Or.inl (by decide)) (by decide)

/-- Claim C3, counterexample: two failures of the literal claim.  First, on a
bracket-notation line the appended reset loses its escape character in the
final strip, so with a live foreground color the output does not end with a
real reset token.  Second, a reset token of the input that is embedded in a
larger malformed chunk (here `ESC[x ESC[0m`, grabbed whole by the find-m
tokenizer) is preserved but does not clear the tracked color state: the
foreground is still live at end of line. -/
theorem c3_counterexample :
    (compressLineFull false "[38;2;1;2;3mab".data =
        some ("[38;2;1;2;3mab[0m".data, none, some "\x1b[38;2;1;2;3m".data) ∧
      resetTok.isSuffixOf "[38;2;1;2;3mab[0m".data = false) ∧
    (compressLineFull true "\x1b[38;2;1;2;3ma\x1b[x\x1b[0mb".data =
        some ("\x1b[38;2;1;2;3ma\x1b[x\x1b[0m\x1b[38;2;1;2;3mb\x1b[0m".data,
          none, some "\x1b[38;2;1;2;3m".data) ∧
      countR "\x1b[38;2;1;2;3ma\x1b[x\x1b[0mb".data = 1) := by
  exact ⟨⟨by decide, by decide⟩, ⟨by decide, by decide⟩⟩

/-- Claim C3, amended: (1) on well-formed real-escape texts, a successful
`compress_frame` never loses a reset token (the output contains at least as
many resets as the input); (2) a standalone reset chunk clears both tracked
color states and is appended to the output after a flush; (3) in the
real-escape mode, whenever a color state is still live at the end of a line,
the output line ends with a reset token. -/
theorem c3_reset_handling :
    (∀ text out, WfTok text → hasEscBr text = true → compress_frame text = some out →
        countR text ≤ countR out) ∧
    (∀ s : CompSt, (chunkStep s resetTok).bg = none ∧ (chunkStep s resetTok).fg = none ∧
        (chunkStep s resetTok).comp = (flushSt s).comp ++ [resetTok]) ∧
    (∀ line o bg fg, compressLineFull true line = some (o, bg, fg) →
        (bg.isSome || fg.isSome) = true → resetTok.isSuffixOf o = true) := by
  refine ⟨?_, ?_, ?_⟩
  · intro text out hwf hesc hout
    by_cases hnil : text = []
    · subst hnil
      exact absurd hesc (by decide)
    · rw [compress_frame_eq text hnil] at hout
      cases hopt : optList ((splitNl text).map (compressLine (hasEscBr text))) with
      | none =>
        rw [hopt] at hout
        exact absurd hout (by simp)
      | some outs =>
        rw [hopt] at hout
        simp only [Option.some.injEq] at hout
        subst hout
        have hlines := splitNl_wf hwf
        rw [hesc] at hopt
        have hfa := optList_forall₂ (compressLine true) (splitNl text) outs hopt
        obtain ⟨hwfo, _, hsum⟩ := forall₂_strip hfa hlines
        calc countR text = countR (joinNl (splitNl text)) := by rw [joinNl_splitNl]
          _ = ((splitNl text).map countR).sum := countR_joinNl hlines
          _ ≤ (outs.map countR).sum := hsum
          _ = countR (joinNl outs) := (countR_joinNl hwfo).symm
  · intro s
    rw [chunkStep, if_pos rfl]
    exact ⟨rfl, rfl, rfl⟩
  · intro line o bg fg h hsome
    exact compressLineFull_reset_end h hsome

/-- Claim C3, witness: the amended theorem's reset-preservation part applied
to the concrete well-formed text `ESC[0mA`, and its trailing-reset part
applied to the line `ESC[38;2;1;2;3mA`. -/
theorem c3_reset_handling_witness :
    (hasEscBr "\x1b[0mA".data = true ∧
      countR "\x1b[0mA".data ≤ countR "\x1b[0mA".data) ∧
    resetTok.isSuffixOf "\x1b[38;2;1;2;3mA\x1b[0m".data = true := by
  have hwf : WfTok "\x1b[0mA".data := by
    have hsh : "\x1b[0mA".data = escC :: '[' :: "0".data ++ 'm' :: ['A'] := by decide
    rw [hsh]
    exact WfTok.tok (by decide) (WfTok.lit (by decide) WfTok.nil)
  refine ⟨⟨by decide, ?_⟩, ?_⟩
  · exact c3_reset_handling.1 "\x1b[0mA".data "\x1b[0mA".data hwf (by decide) (by decide)
  · exact c3_reset_handling.2.2 "\x1b[38;2;1;2;3mA".data
      "\x1b[38;2;1;2;3mA\x1b[0m".data none (some "\x1b[38;2;1;2;3m".data)
      (by decide) (by decide)

end PyPlayer
